import Mathlib

/-!
Verification development for the `pii_detection_tools/pii_detection.py` program.

The Python source is shallowly embedded:
* Python's `re` engine (as used by `re.findall` on the six patterns of
  `RegexPIIDetector`) is embedded as a backtracking matcher `mtch` over a
  regular-expression AST `RE`; alternatives are explored in Python's priority
  order (greedy quantifiers try longer repetitions first, lazy ones shorter
  first), matches are non-overlapping leftmost scans, and for a pattern with a
  single capture group `findall` yields the group capture (empty string when
  the group did not participate) instead of the matched span.
* `set` becomes `Finset String`, `dict` becomes an association list with
  insert-or-overwrite-in-place semantics (`dictInsert`), files become a map
  from path to a read outcome, and stdin becomes a list of input lines.
* The spaCy and Presidio detectors call external engines (out of scope per the
  specification); they are abstracted as parameters of type
  `String → Except String (Finset String)`, where `.error` models a raised
  exception during `detect`.
-/

/-- Character-class membership: `rs` is a list of inclusive character ranges
(a singleton character is the range `(c, c)`); membership is tested on code
points, as Python does for the ASCII classes appearing in the six patterns. -/
def memCls (c : Char) (rs : List (Char × Char)) : Bool :=
  rs.any (fun r => r.1.toNat ≤ c.toNat && c.toNat ≤ r.2.toNat)

/-- Word characters for Python's `\b`, restricted to ASCII: letters, digits
and underscore.  Python compiles the six patterns in str mode, where `\w`
further counts non-ASCII alphanumerics (for example accented letters) as
word characters; that full Unicode table is not embedded here, so this test
— and with it `atWB` — is faithful to the program exactly at positions whose
neighbouring characters are ASCII.  Every theorem below that relies on a
word boundary therefore constrains the characters adjacent to that boundary
to be ASCII. -/
def wordCls : List (Char × Char) := [('A', 'Z'), ('a', 'z'), ('0', '9'), ('_', '_')]

/-- Test for a word character, used by the `\b` zero-width assertion (see
the caveat on `wordCls`: faithful for ASCII characters). -/
def isWordChar (c : Char) : Bool := memCls c wordCls

/-- ASCII test: on ASCII characters the word-character model above agrees
with Python's str-mode `\w` exactly. -/
def isAsciiChar (c : Char) : Bool := c.toNat < 128

/-- Word-character test lifted to the optional character just outside the
text (Python treats positions before the start and after the end as
non-word). -/
def optWord (o : Option Char) : Bool :=
  match o with
  | some c => isWordChar c
  | none => false

/-- Python's `\b`: a word boundary holds at a position iff exactly one of the
neighbouring characters is a word character.  Via `isWordChar` this inherits
the ASCII restriction documented on `wordCls`: it is faithful at positions
whose neighbours are ASCII, and theorems consulting a boundary constrain
those neighbours accordingly. -/
def atWB (t : List Char) (pos : Nat) : Bool :=
  (optWord (if pos = 0 then none else t[pos - 1]?)) != (optWord t[pos]?)

/-- Regular-expression AST covering the constructs used by the six patterns
of `RegexPIIDetector`: character classes, concatenation, alternation,
counted/unbounded greedy and lazy repetition, capture groups, and `\b`. -/
inductive RE where
  | cls (rs : List (Char × Char))
  | seq (a b : RE)
  | alt (a b : RE)
  | rep (a : RE) (lo : Nat) (hi : Option Nat) (lazy : Bool)
  | grp (idx : Nat) (a : RE)
  | wb
deriving Repr, DecidableEq

/-- Capture records `(group index, start, end)`; a later capture of the same
group shadows an earlier one, as in Python where the last capture wins. -/
abbrev Caps : Type := List (Nat × Nat × Nat)

/-- Record a capture of group `i` spanning `[s, e)`. -/
def setCap (i s e : Nat) (cp : Caps) : Caps := (i, s, e) :: cp

/-- Look up the most recent capture of group `i`. -/
def lookupCap (i : Nat) (cp : Caps) : Option (Nat × Nat) :=
  match cp with
  | [] => none
  | x :: rest => if x.1 = i then some (x.2.1, x.2.2) else lookupCap i rest

/-- Matching step for a character class at a position. -/
def clsStep (rs : List (Char × Char)) (t : List Char) (pos : Nat) (cp : Caps) :
    List (Nat × Caps) :=
  match t[pos]? with
  | some c => if memCls c rs then [(pos + 1, cp)] else []
  | none => []

/-- Matching step for the zero-width `\b` assertion. -/
def wbStep (t : List Char) (pos : Nat) (cp : Caps) : List (Nat × Caps) :=
  if atWB t pos then [(pos, cp)] else []

/-- Decrement an optional repetition bound. -/
def optPred (hi : Option Nat) : Option Nat := hi.map (fun h => h - 1)

/-- Repetition driver for a fixed body matcher `body`: with `lo` mandatory
iterations remaining the body must match; afterwards a greedy repetition
prefers continuing while a lazy one prefers stopping, and a zero-width body
iteration stops the repetition (Python's no-progress rule).  `hi` is the
remaining maximum number of iterations; `cnt` bounds the iterations unfolded
and is always called with more than `lo` plus the text length, which no run
can exceed since every non-mandatory iteration advances the position. -/
def repIter (body : Nat → Caps → List (Nat × Caps)) :
    Nat → Nat → Option Nat → Bool → Nat → Caps → List (Nat × Caps)
  | 0, _, _, _, _, _ => []
  | cnt + 1, lo + 1, hi, lz, pos, cp =>
      (body pos cp).flatMap
        (fun ec => repIter body cnt lo (optPred hi) lz ec.1 ec.2)
  | _ + 1, 0, some 0, _, pos, cp => [(pos, cp)]
  | cnt + 1, 0, some (h + 1), lz, pos, cp =>
      if lz then
        (pos, cp) ::
          (body pos cp).flatMap
            (fun ec => if ec.1 = pos then [] else repIter body cnt 0 (some h) lz ec.1 ec.2)
      else
        ((body pos cp).flatMap
            (fun ec => if ec.1 = pos then [] else repIter body cnt 0 (some h) lz ec.1 ec.2)) ++
          [(pos, cp)]
  | cnt + 1, 0, none, lz, pos, cp =>
      if lz then
        (pos, cp) ::
          (body pos cp).flatMap
            (fun ec => if ec.1 = pos then [] else repIter body cnt 0 none lz ec.1 ec.2)
      else
        ((body pos cp).flatMap
            (fun ec => if ec.1 = pos then [] else repIter body cnt 0 none lz ec.1 ec.2)) ++
          [(pos, cp)]

/-- Backtracking matcher: all ways the expression can match starting at `pos`,
as `(end position, captures)` pairs, listed in Python's backtracking priority
order (greedy repetitions try longer runs first, lazy ones shorter first,
left alternative first); the overall match Python reports at a position is
the head of this list. -/
def mtch : RE → List Char → Nat → Caps → List (Nat × Caps)
  | .cls rs, t, pos, cp => clsStep rs t pos cp
  | .seq a b, t, pos, cp =>
      (mtch a t pos cp).flatMap (fun ec => mtch b t ec.1 ec.2)
  | .alt a b, t, pos, cp => mtch a t pos cp ++ mtch b t pos cp
  | .rep a lo hi lz, t, pos, cp =>
      repIter (fun pos2 cp2 => mtch a t pos2 cp2) (lo + t.length + 1) lo hi lz pos cp
  | .grp i a, t, pos, cp =>
      (mtch a t pos cp).map (fun ec => (ec.1, setCap i pos ec.1 ec.2))
  | .wb, t, pos, cp => wbStep t pos cp

/-- Number of capture groups in a pattern (Python's `re.findall` changes the
shape of its result according to this count). -/
def numGroups : RE → Nat
  | .cls _ => 0
  | .seq a b => numGroups a + numGroups b
  | .alt a b => numGroups a + numGroups b
  | .rep a _ _ _ => numGroups a
  | .grp _ a => numGroups a + 1
  | .wb => 0

/-- Substring of `t` spanning positions `[a, b)`, as a `String`. -/
def sliceStr (t : List Char) (a b : Nat) : String :=
  String.mk ((t.drop a).take (b - a))

/-- Value `re.findall` records for one match: the whole matched span for a
pattern without capture groups, and for a pattern with exactly one group
(the `Phone` pattern) the text captured by that group, or the empty string
when the group did not participate in the match. -/
def reValue (r : RE) (t : List Char) (s e : Nat) (cp : Caps) : String :=
  if numGroups r = 0 then sliceStr t s e
  else
    match lookupCap 1 cp with
    | some se => sliceStr t se.1 se.2
    | none => ""

/-- Scanning loop of `re.findall`: attempt a match at each position from left
to right, record the value of every match found, and resume after the end of
a non-empty match (one past it for an empty match).  The first argument
bounds the number of scan steps; the top-level call supplies `length + 1`,
which suffices since every step advances the position. -/
def findallAux : Nat → RE → List Char → Nat → List String
  | 0, _, _, _ => []
  | f + 1, r, t, pos =>
      if pos ≤ t.length then
        match (mtch r t pos []).head? with
        | some ec =>
            reValue r t pos ec.1 ec.2 ::
              findallAux f r t (if pos < ec.1 then ec.1 else pos + 1)
        | none => findallAux f r t (pos + 1)
      else []

/-- Embedding of `re.findall(pattern, text)`. -/
def pyFindall (r : RE) (s : String) : List String :=
  findallAux (s.data.length + 1) r s.data 0

/-- Modelled from the claim wording of C1 (a reading of the spec, not of the
code): the same non-overlapping scan, but every match contributes the matched
text span itself, irrespective of capture groups. -/
def matchSpansAux : Nat → RE → List Char → Nat → List String
  | 0, _, _, _ => []
  | f + 1, r, t, pos =>
      if pos ≤ t.length then
        match (mtch r t pos []).head? with
        | some ec =>
            sliceStr t pos ec.1 ::
              matchSpansAux f r t (if pos < ec.1 then ec.1 else pos + 1)
        | none => matchSpansAux f r t (pos + 1)
      else []

/-- Matched spans of the non-overlapping scan (claim-side notion for C1). -/
def matchSpans (r : RE) (s : String) : List String :=
  matchSpansAux (s.data.length + 1) r s.data 0

/-- Class `[A-Za-z0-9._%+-]` (local part of the Email pattern). -/
def localCls : List (Char × Char) :=
  [('A', 'Z'), ('a', 'z'), ('0', '9'), ('.', '.'), ('_', '_'), ('%', '%'),
    ('+', '+'), ('-', '-')]

/-- Class `[A-Za-z0-9.-]` (domain part of the Email pattern). -/
def domainCls : List (Char × Char) :=
  [('A', 'Z'), ('a', 'z'), ('0', '9'), ('.', '.'), ('-', '-')]

/-- Class `[A-Z|a-z]` (trailing part of the Email pattern; note the literal
bar that the source pattern includes). -/
def tldCls : List (Char × Char) := [('A', 'Z'), ('|', '|'), ('a', 'z')]

/-- Class `\d`. -/
def digitCls : List (Char × Char) := [('0', '9')]

/-- Class `[-.\s]` (`\s` being whitespace: space, tab, newline, carriage
return, vertical tab, form feed). -/
def sepCls : List (Char × Char) :=
  [('-', '-'), ('.', '.'), (' ', ' '), ('\t', '\t'), ('\n', '\n'),
    ('\r', '\r'), ('\x0b', '\x0b'), ('\x0c', '\x0c')]

/-- Pattern `\b[A-Za-z0-9._%+-]+@[A-Za-z0-9.-]+\.[A-Z|a-z]{2,}\b`. -/
def emailRE : RE :=
  .seq .wb (.seq (.rep (.cls localCls) 1 none false)
    (.seq (.cls [('@', '@')])
      (.seq (.rep (.cls domainCls) 1 none false)
        (.seq (.cls [('.', '.')])
          (.seq (.rep (.cls tldCls) 2 none false) .wb)))))

/-- Pattern `\b(\+\d{1,3}[-.\s]?)?\(?\d{3}\)?[-.\s]?\d{3}[-.\s]?\d{4}\b`;
note the capture group around the optional country-code prefix. -/
def phoneRE : RE :=
  .seq .wb
    (.seq (.rep (.grp 1 (.seq (.cls [('+', '+')])
        (.seq (.rep (.cls digitCls) 1 (some 3) false)
          (.rep (.cls sepCls) 0 (some 1) false)))) 0 (some 1) false)
      (.seq (.rep (.cls [('(', '(')]) 0 (some 1) false)
        (.seq (.rep (.cls digitCls) 3 (some 3) false)
          (.seq (.rep (.cls [(')', ')')]) 0 (some 1) false)
            (.seq (.rep (.cls sepCls) 0 (some 1) false)
              (.seq (.rep (.cls digitCls) 3 (some 3) false)
                (.seq (.rep (.cls sepCls) 0 (some 1) false)
                  (.seq (.rep (.cls digitCls) 4 (some 4) false) .wb))))))))

/-- Pattern `\b\d{3}-\d{2}-\d{4}\b`. -/
def ssnRE : RE :=
  .seq .wb (.seq (.rep (.cls digitCls) 3 (some 3) false)
    (.seq (.cls [('-', '-')])
      (.seq (.rep (.cls digitCls) 2 (some 2) false)
        (.seq (.cls [('-', '-')])
          (.seq (.rep (.cls digitCls) 4 (some 4) false) .wb)))))

/-- Pattern `\b(?:\d[ -]*?){13,16}\b` (non-capturing group, lazy inner star). -/
def creditCardRE : RE :=
  .seq .wb
    (.seq (.rep (.seq (.cls digitCls)
        (.rep (.cls [(' ', ' '), ('-', '-')]) 0 none true)) 13 (some 16) false)
      .wb)

/-- Pattern `\b[A-Z0-9]{6,9}\b`. -/
def passportRE : RE :=
  .seq .wb (.seq (.rep (.cls [('A', 'Z'), ('0', '9')]) 6 (some 9) false) .wb)

/-- Pattern `\b\d{3}-\d{3}-\d{3}\b`. -/
def sinRE : RE :=
  .seq .wb (.seq (.rep (.cls digitCls) 3 (some 3) false)
    (.seq (.cls [('-', '-')])
      (.seq (.rep (.cls digitCls) 3 (some 3) false)
        (.seq (.cls [('-', '-')])
          (.seq (.rep (.cls digitCls) 3 (some 3) false) .wb)))))

/-- The fixed pattern table `self.patterns` of `RegexPIIDetector.__init__`,
in declaration order. -/
def piiPatterns : List (String × RE) :=
  [("Email", emailRE), ("Phone", phoneRE), ("SSN", ssnRE),
    ("Credit Card", creditCardRE), ("Passport", passportRE),
    ("Canadian SIN", sinRE)]

/-- Embedding of `RegexPIIDetector.detect`: for every pattern, add a finding
`f"{pii_type}: {match}"` for every value `re.findall` produces. -/
def detect (text : String) : Finset String :=
  piiPatterns.foldl
    (fun fs p =>
      (pyFindall p.2 text).foldl (fun fs2 v => insert (p.1 ++ ": " ++ v) fs2) fs)
    ∅

/-- Modelled from the claim wording of C1: the findings set the claim
describes, in which every pattern contributes `"K: m"` for its matched text
spans `m` themselves. -/
def detectClaimC1 (text : String) : Finset String :=
  piiPatterns.foldl
    (fun fs p =>
      (matchSpans p.2 text).foldl (fun fs2 v => insert (p.1 ++ ": " ++ v) fs2) fs)
    ∅

/-- Whitespace characters stripped by Python's `str.strip()` and split on by
`str.split()` (ASCII fragment). -/
def pyIsSpace (c : Char) : Bool :=
  memCls c [(' ', ' '), ('\t', '\t'), ('\n', '\n'), ('\r', '\r'),
    ('\x0b', '\x0b'), ('\x0c', '\x0c')]

/-- Embedding of `str.strip()`: drop leading and trailing whitespace. -/
def pyStrip (s : String) : String :=
  String.mk (((s.data.dropWhile pyIsSpace).reverse.dropWhile pyIsSpace).reverse)

/-- Embedding of `str.lower()` (ASCII case mapping, which covers the inputs
the selection step compares against). -/
def pyLower (s : String) : String := String.mk (s.data.map Char.toLower)

/-- Embedding of `str.capitalize()`: first character upper-cased, the rest
lower-cased. -/
def pyCapitalize (s : String) : String :=
  match s.data with
  | [] => ""
  | c :: rest => String.mk (c.toUpper :: rest.map Char.toLower)

/-- Splitter of `str.split()` with no arguments: maximal non-empty runs of
non-whitespace characters.  The accumulator holds the current token
reversed. -/
def splitWsAux : List Char → List Char → List (List Char)
  | [], acc => if acc = [] then [] else [acc.reverse]
  | c :: cs, acc =>
      if pyIsSpace c then
        if acc = [] then splitWsAux cs [] else acc.reverse :: splitWsAux cs []
      else splitWsAux cs (c :: acc)

/-- Embedding of `str.split()`. -/
def pySplit (s : String) : List String := (splitWsAux s.data []).map String.mk

/-- Numeric value of an ASCII digit. -/
def digitVal (c : Char) : Nat := c.toNat - 48

/-- Digit string as accepted by Python's `int()` after the first digit:
decimal digits with single underscores allowed between digits. -/
def pyIntDigits : List Char → Nat → Option Nat
  | [], acc => some acc
  | '_' :: c :: rest, acc =>
      if c.isDigit then pyIntDigits rest (acc * 10 + digitVal c) else none
  | c :: rest, acc =>
      if c.isDigit then pyIntDigits rest (acc * 10 + digitVal c) else none

/-- Unsigned part of Python's `int()`: at least one digit, then
`pyIntDigits`. -/
def pyIntNat : List Char → Option Nat
  | [] => none
  | c :: rest => if c.isDigit then pyIntDigits rest (digitVal c) else none

/-- Embedding of `int(token)` for whitespace-free tokens (the tokens produced
by `str.split()`): an optional sign followed by digits; `none` models a
raised `ValueError`. -/
def pyInt (s : String) : Option Int :=
  match s.data with
  | '+' :: rest => (pyIntNat rest).map (fun n => (n : Int))
  | '-' :: rest => (pyIntNat rest).map (fun n => -(n : Int))
  | cs => (pyIntNat cs).map (fun n => (n : Int))

/-- Map a fallible function over a list, failing on the first failure, as the
list comprehension `[int(x) - 1 for x in user_input.split()]` does. -/
def mapOpt (f : String → Option Int) : List String → Option (List Int)
  | [] => some []
  | x :: xs =>
      match f x with
      | none => none
      | some y => (mapOpt f xs).map (fun ys => y :: ys)

/-- The manager's `self.available_methods`: the detector names, in dictionary
insertion order. -/
def availableMethods : List String := ["regex", "spacy", "presidio"]

/-- The `selected` list of `select_methods`: each token parsed with `int` then
decremented; `none` models the `ValueError` caught by the loop. -/
def parseSelection (s : String) : Option (List Int) :=
  (mapOpt pyInt (pySplit s)).map (fun l => l.map (fun x => x - 1))

/-- Embedding of the `while True` input loop of
`PIIDetectionManager.select_methods`, reading from a list of stdin lines:
`"all"` returns every method; a line of valid indices returns the selection;
a malformed line (parse failure or out-of-range index) falls through to the
next line; `none` models exhausting stdin (an uncaught `EOFError`). -/
def select_methods : List String → Option (List String)
  | [] => none
  | line :: rest =>
      let s := pyLower (pyStrip line)
      if s = "all" then some availableMethods
      else
        match parseSelection s with
        | none => select_methods rest
        | some sel =>
            if sel.all (fun x => decide (0 ≤ x ∧ x < (availableMethods.length : Int))) then
              some (sel.map (fun x => availableMethods.getD x.toNat ""))
            else select_methods rest

/-- Outcome of opening and reading the corpus file: present with contents,
absent (`FileNotFoundError`), or failing with some other exception. -/
inductive FSResult where
  | found (contents : String)
  | missing
  | failure (msg : String)

/-- Embedding of `PIIDetectionManager.read_corpus`: the file contents paired
with the error notices printed, returning `""` on any failure. -/
def read_corpus (fs : String → FSResult) (path : String) : String × List String :=
  match fs path with
  | .found contents => (contents, [])
  | .missing => ("", ["Error: File '" ++ path ++ "' not found."])
  | .failure e => ("", ["Error reading file: " ++ e])

/-- Python-dict assignment `d[k] = v` on an association list: overwrite in
place if the key is present, else append (insertion order preserved). -/
def dictInsert (k : String) (v : Finset String) :
    List (String × Finset String) → List (String × Finset String)
  | [] => [(k, v)]
  | kv :: rest => if kv.1 = k then (k, v) :: rest else kv :: dictInsert k v rest

/-- Key lookup on an association list. -/
def dictLookup (k : String) : List (String × Finset String) → Option (Finset String)
  | [] => none
  | kv :: rest => if kv.1 = k then some kv.2 else dictLookup k rest

/-- Keys of an association list, in order. -/
def dictKeys (d : List (String × Finset String)) : List String := d.map (fun kv => kv.1)

/-- One `detect` call under the `try`/`except` of `detect_pii`: a raised
exception yields an empty findings set. -/
def runDetector (f : String → Except String (Finset String)) (text : String) :
    Finset String :=
  match f text with
  | .ok s => s
  | .error _ => ∅

/-- Embedding of `PIIDetectionManager.detect_pii`: walk the selected method
names; unknown names are skipped, known ones have their detector run (with
per-call exception isolation) and the result stored under the method name. -/
def detect_pii (dets : String → Option (String → Except String (Finset String)))
    (text : String) (methods : List String) : List (String × Finset String) :=
  methods.foldl
    (fun results m =>
      match dets m with
      | none => results
      | some f => dictInsert m (runDetector f text) results)
    []

/-- Names whose detectors `detect_pii` actually invokes: every occurrence of
a known method name, in order. -/
def detectPiiInvoked (dets : String → Option (String → Except String (Finset String)))
    (methods : List String) : List String :=
  methods.filter (fun m => (dets m).isSome)

/-- The manager's `self.detectors` table: `regex` is the pattern-based
detector embedded in this file (it never raises); the spaCy and Presidio
detectors call external engines and are abstracted as parameters. -/
def managerDetectors (spacyD presidioD : String → Except String (Finset String)) :
    String → Option (String → Except String (Finset String)) :=
  fun n =>
    if n = "regex" then some (fun t => .ok (detect t))
    else if n = "spacy" then some spacyD
    else if n = "presidio" then some presidioD
    else none

/-- Embedding of `PIIDetectionManager.display_results` as the list of printed
strings (each `print` call contributes one element, leading newlines
included). -/
def display_results (results : List (String × Finset String)) : List String :=
  ["\n=== PII Detection Results ==="] ++
    results.flatMap
      (fun mr =>
        ("\n" ++ pyCapitalize mr.1 ++ " Detector:") ::
          (if mr.2.Nonempty then
            (mr.2.sort (· ≤ ·)).map (fun f => "  - " ++ f)
          else ["  No PII detected."])) ++
    ["\n============================"]

/-- Outcome of one `main()` run: halt on corpus read error, crash on stdin
exhaustion (`EOFError` is not caught), halt on empty selection, or complete
with results.  Each constructor records the notices printed on its path. -/
inductive MainOutcome where
  | corpusError (printed : List String)
  | eofCrash (printed : List String)
  | noMethods (printed : List String)
  | completed (printed : List String) (invoked : List String)
      (results : List (String × Finset String))
deriving DecidableEq

/-- Detector invocations performed during a run (none unless detection ran). -/
def invokedOf : MainOutcome → List String
  | .completed _ inv _ => inv
  | _ => []

/-- The hardcoded input path of `main()`. -/
def corpusFile : String := "input_corpus.txt"

/-- Embedding of `main()` (after successful manager construction): read the
corpus, halt if it is empty, select methods, halt if the selection is empty,
else run the selected detectors and display the results. -/
def mainRun (fs : String → FSResult) (stdin : List String)
    (spacyD presidioD : String → Except String (Finset String)) : MainOutcome :=
  let dets := managerDetectors spacyD presidioD
  let rc := read_corpus fs corpusFile
  if rc.1 = "" then .corpusError (rc.2 ++ ["Exiting due to corpus read error."])
  else
    match select_methods stdin with
    | none => .eofCrash rc.2
    | some [] => .noMethods (rc.2 ++ ["No methods selected. Exiting."])
    | some (m :: ms) =>
        let res := detect_pii dets rc.1 (m :: ms)
        .completed (rc.2 ++ display_results res) (detectPiiInvoked dets (m :: ms)) res

/-- Modelled from the claim wording of C10: the distinct known method names of
a selection, in first-occurrence order; `seen` carries the names already
listed. -/
def distinctKnownFirst (known : String → Bool) :
    List String → List String → List String
  | _, [] => []
  | seen, m :: ms =>
      if known m = true ∧ m ∉ seen then
        m :: distinctKnownFirst known (m :: seen) ms
      else distinctKnownFirst known seen ms

/-- A selection line the claim C6 calls malformed: not `"all"`, and either
some token fails integer parsing or some parsed index is out of range. -/
def lineMalformed (line : String) : Prop :=
  pyLower (pyStrip line) ≠ "all" ∧
  (parseSelection (pyLower (pyStrip line)) = none ∨
    ∃ sel, parseSelection (pyLower (pyStrip line)) = some sel ∧
      sel.all (fun x => decide (0 ≤ x ∧ x < (availableMethods.length : Int))) = false)

/-- Helper: looking up the key just written by a dict assignment. -/
theorem dictLookup_dictInsert_self (k : String) (v : Finset String)
    (d : List (String × Finset String)) : dictLookup k (dictInsert k v d) = some v := by
  induction d with
  | nil => simp [dictInsert, dictLookup]
  | cons kv rest ih =>
      by_cases h : kv.1 = k
      · simp [dictInsert, dictLookup, h]
      · simp [dictInsert, dictLookup, h, ih]

/-- Helper: a dict assignment leaves other keys unchanged. -/
theorem dictLookup_dictInsert_ne (k k2 : String) (v : Finset String)
    (d : List (String × Finset String)) (h : k2 ≠ k) :
    dictLookup k2 (dictInsert k v d) = dictLookup k2 d := by
  induction d with
  | nil => simp [dictInsert, dictLookup, h, Ne.symm h]
  | cons kv rest ih =>
      by_cases hk : kv.1 = k
      · subst hk
        simp [dictInsert, dictLookup, h, Ne.symm h]
      · simp [dictInsert, dictLookup, hk, ih]

/-- Helper: the `detect_pii` fold never touches a key absent from the
remaining method list. -/
theorem detect_pii_foldl_preserve
    (dets : String → Option (String → Except String (Finset String)))
    (text : String) (m : String) :
    ∀ (ms : List String) (acc : List (String × Finset String)), m ∉ ms →
      dictLookup m (ms.foldl
        (fun results m2 =>
          match dets m2 with
          | none => results
          | some f => dictInsert m2 (runDetector f text) results) acc) =
        dictLookup m acc := by
  intro ms
  induction ms with
  | nil => intro acc _; rfl
  | cons m2 ms ih =>
      intro acc hm
      have hne : m ≠ m2 := fun h => hm (h ▸ List.mem_cons_self m2 ms)
      have hm2 : m ∉ ms := fun h => hm (List.mem_cons_of_mem _ h)
      cases hd : dets m2 with
      | none => simpa [List.foldl_cons, hd] using ih acc hm2
      | some f =>
          simpa [List.foldl_cons, hd,
            dictLookup_dictInsert_ne m2 m (runDetector f text) acc hne] using
            ih (dictInsert m2 (runDetector f text) acc) hm2

/-- Helper: after `detect_pii`, a selected method with a known detector maps
to exactly what its (pure) `detect` call produced. -/
theorem detect_pii_lookup
    (dets : String → Option (String → Except String (Finset String)))
    (text : String) (m : String) (f : String → Except String (Finset String)) :
    ∀ (ms : List String) (acc : List (String × Finset String)),
      m ∈ ms → dets m = some f →
      dictLookup m (ms.foldl
        (fun results m2 =>
          match dets m2 with
          | none => results
          | some f2 => dictInsert m2 (runDetector f2 text) results) acc) =
        some (runDetector f text) := by
  intro ms
  induction ms with
  | nil => intro acc h; exact absurd h (List.not_mem_nil m)
  | cons m2 ms ih =>
      intro acc hmem hf
      by_cases hin : m ∈ ms
      · simpa [List.foldl_cons] using ih _ hin hf
      · have hm2 : m = m2 := by
          rcases List.mem_cons.mp hmem with h | h
          · exact h
          · exact absurd h hin
        subst hm2
        rw [List.foldl_cons, hf]
        rw [detect_pii_foldl_preserve dets text m ms _ hin]
        exact dictLookup_dictInsert_self m (runDetector f text) acc

/-- Claim C2: if one selected strategy's `detect` raises, its entry in the
result mapping is the empty set, and every selected strategy whose `detect`
returns normally keeps exactly the set it produced. -/
theorem claim_C2
    (dets : String → Option (String → Except String (Finset String)))
    (text : String) (methods : List String) (m : String)
    (f : String → Except String (Finset String))
    (hmem : m ∈ methods) (hf : dets m = some f)
    (herr : ∃ e, f text = Except.error e) :
    dictLookup m (detect_pii dets text methods) = some ∅ ∧
    ∀ (m2 : String) (f2 : String → Except String (Finset String)) (s : Finset String),
      m2 ∈ methods → dets m2 = some f2 → f2 text = Except.ok s →
      dictLookup m2 (detect_pii dets text methods) = some s := by
  constructor
  · obtain ⟨e, he⟩ := herr
    have hrun : runDetector f text = ∅ := by simp [runDetector, he]
    have := detect_pii_lookup dets text m f methods [] hmem hf
    rw [hrun] at this
    exact this
  · intro m2 f2 s hmem2 hf2 hok
    have hrun : runDetector f2 text = s := by simp [runDetector, hok]
    have := detect_pii_lookup dets text m2 f2 methods [] hmem2 hf2
    rw [hrun] at this
    exact this

/-- Witness for C2: with the spaCy engine raising and Presidio returning
normally, the failed strategy maps to the empty set while the regex
strategy keeps its findings. -/
theorem claim_C2_witness :
    dictLookup "spacy"
        (detect_pii (managerDetectors (fun _ => .error "model crash") (fun _ => .ok ∅))
          "hi" ["regex", "spacy"]) = some ∅ ∧
    dictLookup "regex"
        (detect_pii (managerDetectors (fun _ => .error "model crash") (fun _ => .ok ∅))
          "hi" ["regex", "spacy"]) = some (detect "hi") := by
  constructor
  · exact (claim_C2 (managerDetectors (fun _ => .error "model crash") (fun _ => .ok ∅))
      "hi" ["regex", "spacy"] "spacy" (fun _ => .error "model crash")
      (by decide) rfl ⟨"model crash", rfl⟩).1
  · exact (claim_C2 (managerDetectors (fun _ => .error "model crash") (fun _ => .ok ∅))
      "hi" ["regex", "spacy"] "spacy" (fun _ => .error "model crash")
      (by decide) rfl ⟨"model crash", rfl⟩).2 "regex" (fun t => .ok (detect t))
      (detect "hi") (by decide) rfl rfl

/-- Claim C3: for a missing corpus file, `read_corpus` returns the empty
string and prints an error notice, and `main` halts before selection with no
detector invoked. -/
theorem claim_C3 (fs : String → FSResult) (stdin : List String)
    (spacyD presidioD : String → Except String (Finset String))
    (h : fs corpusFile = .missing) :
    read_corpus fs corpusFile =
      ("", ["Error: File 'input_corpus.txt' not found."]) ∧
    mainRun fs stdin spacyD presidioD =
      .corpusError ["Error: File 'input_corpus.txt' not found.",
        "Exiting due to corpus read error."] ∧
    invokedOf (mainRun fs stdin spacyD presidioD) = [] := by
  have hrc : read_corpus fs corpusFile =
      ("", ["Error: File 'input_corpus.txt' not found."]) := by
    simp [read_corpus, h]
    rfl
  refine ⟨hrc, ?_, ?_⟩ <;> simp [mainRun, hrc, invokedOf]

/-- Witness for C3 at a concrete empty file system. -/
theorem claim_C3_witness :
    read_corpus (fun _ => FSResult.missing) corpusFile =
      ("", ["Error: File 'input_corpus.txt' not found."]) ∧
    mainRun (fun _ => FSResult.missing) ["all"] (fun _ => .ok ∅) (fun _ => .ok ∅) =
      .corpusError ["Error: File 'input_corpus.txt' not found.",
        "Exiting due to corpus read error."] ∧
    invokedOf (mainRun (fun _ => FSResult.missing) ["all"]
      (fun _ => .ok ∅) (fun _ => .ok ∅)) = [] :=
  claim_C3 (fun _ => FSResult.missing) ["all"] (fun _ => .ok ∅) (fun _ => .ok ∅) rfl

/-- Claim C9: an existing but empty corpus file produces the empty string
with no error notice from `read_corpus`, yet `main` halts with the same
corpus-read-error message as for a missing file, invoking no detector. -/
theorem claim_C9 (fs : String → FSResult) (stdin : List String)
    (spacyD presidioD : String → Except String (Finset String))
    (h : fs corpusFile = .found "") :
    read_corpus fs corpusFile = ("", []) ∧
    mainRun fs stdin spacyD presidioD =
      .corpusError ["Exiting due to corpus read error."] ∧
    invokedOf (mainRun fs stdin spacyD presidioD) = [] := by
  have hrc : read_corpus fs corpusFile = ("", []) := by simp [read_corpus, h]
  refine ⟨hrc, ?_, ?_⟩ <;> simp [mainRun, hrc, invokedOf]

/-- Witness for C9 at a concrete file system holding an empty file. -/
theorem claim_C9_witness :
    read_corpus (fun _ => FSResult.found "") corpusFile = ("", []) ∧
    mainRun (fun _ => FSResult.found "") ["all"] (fun _ => .ok ∅) (fun _ => .ok ∅) =
      .corpusError ["Exiting due to corpus read error."] ∧
    invokedOf (mainRun (fun _ => FSResult.found "") ["all"]
      (fun _ => .ok ∅) (fun _ => .ok ∅)) = [] :=
  claim_C9 (fun _ => FSResult.found "") ["all"] (fun _ => .ok ∅) (fun _ => .ok ∅) rfl

/-- Claim C5: the input `"all"` selects every available strategy name in
declared order. -/
theorem claim_C5 (rest : List String) :
    select_methods ("all" :: rest) = some availableMethods ∧
    availableMethods = ["regex", "spacy", "presidio"] := by
  constructor
  · rfl
  · rfl

/-- Helper: stripping a fully-whitespace line yields the empty string. -/
theorem pyStrip_all_space (line : String) (h : ∀ c ∈ line.data, pyIsSpace c) :
    pyStrip line = "" := by
  have hd : line.data.dropWhile pyIsSpace = [] := by
    rw [List.dropWhile_eq_nil_iff]
    intro c hc
    exact h c hc
  simp [pyStrip, hd]

/-- Claim C8: an empty or whitespace-only selection line makes
`select_methods` return the empty list at once, after which `main` prints the
no-methods notice and stops without invoking any detector. -/
theorem claim_C8 (line : String) (rest : List String) (fs : String → FSResult)
    (spacyD presidioD : String → Except String (Finset String)) (content : String)
    (hws : ∀ c ∈ line.data, pyIsSpace c)
    (hfs : fs corpusFile = .found content) (hne : content ≠ "") :
    select_methods (line :: rest) = some [] ∧
    mainRun fs (line :: rest) spacyD presidioD =
      .noMethods ["No methods selected. Exiting."] ∧
    invokedOf (mainRun fs (line :: rest) spacyD presidioD) = [] := by
  have hs : pyStrip line = "" := pyStrip_all_space line hws
  have hsel : select_methods (line :: rest) = some [] := by
    simp only [select_methods, hs]
    rfl
  refine ⟨hsel, ?_, ?_⟩ <;>
    simp [mainRun, read_corpus, hfs, hne, hsel, invokedOf]

/-- Witness for C8 with a two-space line and a non-empty corpus. -/
theorem claim_C8_witness :
    select_methods ["  ", "all"] = some [] ∧
    mainRun (fun _ => FSResult.found "text") ["  ", "all"]
      (fun _ => .ok ∅) (fun _ => .ok ∅) =
      .noMethods ["No methods selected. Exiting."] ∧
    invokedOf (mainRun (fun _ => FSResult.found "text") ["  ", "all"]
      (fun _ => .ok ∅) (fun _ => .ok ∅)) = [] :=
  claim_C8 "  " ["all"] (fun _ => FSResult.found "text")
    (fun _ => .ok ∅) (fun _ => .ok ∅) "text" (by decide) rfl (by decide)

/-- Claim C6: a malformed selection line is skipped (the loop re-prompts on
the remaining input, for as long as malformed lines keep coming), and
whatever list the loop eventually returns names only available strategies. -/
theorem claim_C6 :
    (∀ (line : String) (rest : List String), lineMalformed line →
      select_methods (line :: rest) = select_methods rest) ∧
    (∀ (input : List String) (l : List String), select_methods input = some l →
      ∀ m ∈ l, m ∈ availableMethods) := by
  constructor
  · intro line rest hmal
    obtain ⟨hne, hcase⟩ := hmal
    simp only [select_methods, if_neg hne]
    rcases hcase with hnone | ⟨sel, hsel, hall⟩
    · simp only [hnone]
    · simp only [hsel, hall]
      simp
  · intro input
    induction input with
    | nil => intro l h; exact absurd h (by simp [select_methods])
    | cons line rest ih =>
        intro l h
        rw [select_methods] at h
        by_cases hall : pyLower (pyStrip line) = "all"
        · rw [if_pos hall] at h
          intro m hm
          rw [Option.some_inj] at h
          exact h ▸ hm
        · rw [if_neg hall] at h
          cases hsel : parseSelection (pyLower (pyStrip line)) with
          | none => rw [hsel] at h; exact ih l h
          | some sel =>
              simp only [hsel] at h
              by_cases hrange :
                  sel.all (fun x => decide (0 ≤ x ∧ x < (availableMethods.length : Int))) = true
              · rw [if_pos hrange, Option.some_inj] at h
                intro m hm
                rw [← h] at hm
                obtain ⟨x, hx, hgx⟩ := List.mem_map.mp hm
                have hb := List.all_eq_true.mp hrange x hx
                have hxr : 0 ≤ x ∧ x < (availableMethods.length : Int) :=
                  of_decide_eq_true hb
                have hlt : x.toNat < availableMethods.length := by omega
                rw [← hgx, List.getD_eq_getElem availableMethods "" hlt]
                exact List.getElem_mem hlt
              · rw [if_neg hrange] at h
                exact ih l h

/-- Witness for C6: a non-numeric line defers to the rest of the input, and a
returned selection (here from the line `"2"`) names only available
strategies. -/
theorem claim_C6_witness :
    select_methods ["x y", "all"] = select_methods ["all"] ∧
    "spacy" ∈ availableMethods :=
  ⟨claim_C6.1 "x y" ["all"] ⟨by decide, Or.inl (by decide)⟩,
    claim_C6.2 ["2"] ["spacy"] (by decide) "spacy" (by decide)⟩

/-- Helper: keys after a dict assignment are unchanged when the key was
present and gain the new key at the end otherwise. -/
theorem dictKeys_dictInsert (k : String) (v : Finset String)
    (d : List (String × Finset String)) :
    dictKeys (dictInsert k v d) =
      if k ∈ dictKeys d then dictKeys d else dictKeys d ++ [k] := by
  induction d with
  | nil => simp [dictInsert, dictKeys]
  | cons kv rest ih =>
      by_cases h : kv.1 = k
      · simp [dictInsert, dictKeys, h]
      · simp only [dictInsert, if_neg h, dictKeys, List.map_cons] at ih ⊢
        rw [ih]
        by_cases hmem : k ∈ rest.map (fun kv => kv.1)
        · simp [hmem, h, Ne.symm h]
        · simp [hmem, h, Ne.symm h]

/-- Helper: `distinctKnownFirst` only consults membership in `seen`. -/
theorem distinctKnownFirst_congr (known : String → Bool) :
    ∀ (ms : List String) (s1 s2 : List String),
      (∀ x, x ∈ s1 ↔ x ∈ s2) →
      distinctKnownFirst known s1 ms = distinctKnownFirst known s2 ms := by
  intro ms
  induction ms with
  | nil => intro s1 s2 _; rfl
  | cons m ms ih =>
      intro s1 s2 hs
      simp only [distinctKnownFirst]
      by_cases h : known m = true ∧ m ∉ s2
      · rw [if_pos ⟨h.1, fun hm => h.2 ((hs m).mp hm)⟩, if_pos h]
        have : ∀ x, x ∈ m :: s1 ↔ x ∈ m :: s2 := by
          intro x
          simp [List.mem_cons, hs x]
        rw [ih _ _ this]
      · have h1 : ¬(known m = true ∧ m ∉ s1) := by
          intro hc
          exact h ⟨hc.1, fun hm => hc.2 ((hs m).mpr hm)⟩
        rw [if_neg h1, if_neg h]
        exact ih _ _ hs

/-- Helper: key list of the `detect_pii` fold, relative to an accumulator. -/
theorem detect_pii_keys
    (dets : String → Option (String → Except String (Finset String)))
    (text : String) :
    ∀ (ms : List String) (acc : List (String × Finset String)),
      dictKeys (ms.foldl
        (fun results m2 =>
          match dets m2 with
          | none => results
          | some f => dictInsert m2 (runDetector f text) results) acc) =
        dictKeys acc ++
          distinctKnownFirst (fun m => (dets m).isSome) (dictKeys acc) ms := by
  intro ms
  induction ms with
  | nil => intro acc; simp [distinctKnownFirst]
  | cons m ms ih =>
      intro acc
      cases hd : dets m with
      | none =>
          rw [List.foldl_cons]
          simp only [hd]
          rw [ih acc]
          simp [distinctKnownFirst, hd]
      | some f =>
          rw [List.foldl_cons]
          simp only [hd]
          rw [ih (dictInsert m (runDetector f text) acc)]
          rw [dictKeys_dictInsert]
          by_cases hmem : m ∈ dictKeys acc
          · rw [if_pos hmem]
            have hni : ¬((fun m2 => (dets m2).isSome) m = true ∧ m ∉ dictKeys acc) :=
              fun hc => hc.2 hmem
            simp only [distinctKnownFirst, if_neg hni]
          · rw [if_neg hmem]
            have hyes : (fun m2 => (dets m2).isSome) m = true ∧ m ∉ dictKeys acc :=
              ⟨by simp [hd], hmem⟩
            simp only [distinctKnownFirst, if_pos hyes]
            rw [List.append_assoc, List.singleton_append]
            congr 1
            congr 1
            apply distinctKnownFirst_congr
            intro x
            simp [List.mem_append, List.mem_cons, or_comm]

/-- Helper: `distinctKnownFirst` lists no element of `seen` and no element
twice. -/
theorem distinctKnownFirst_nodup (known : String → Bool) :
    ∀ (ms seen : List String),
      (distinctKnownFirst known seen ms).Nodup ∧
      ∀ x ∈ distinctKnownFirst known seen ms, x ∉ seen := by
  intro ms
  induction ms with
  | nil => intro seen; simp [distinctKnownFirst]
  | cons m ms ih =>
      intro seen
      simp only [distinctKnownFirst]
      by_cases h : known m = true ∧ m ∉ seen
      · rw [if_pos h]
        obtain ⟨hnd, hnotin⟩ := ih (m :: seen)
        have hm : m ∉ seen := h.2
        constructor
        · rw [List.nodup_cons]
          refine ⟨fun hmem => ?_, hnd⟩
          exact (hnotin m hmem) (List.mem_cons_self m seen)
        · intro x hx
          rcases List.mem_cons.mp hx with rfl | hx2
          · exact hm
          · intro hxs
            exact (hnotin x hx2) (List.mem_cons_of_mem m hxs)
      · rw [if_neg h]
        exact ih seen

/-- Claim C10: the result mapping of `detect_pii` has one entry per distinct
known method name, keyed in first-occurrence order, so duplicate selections
never yield duplicate report sections. -/
theorem claim_C10
    (dets : String → Option (String → Except String (Finset String)))
    (text : String) (methods : List String) :
    dictKeys (detect_pii dets text methods) =
      distinctKnownFirst (fun m => (dets m).isSome) [] methods ∧
    (dictKeys (detect_pii dets text methods)).Nodup := by
  have h := detect_pii_keys dets text methods []
  have hkeys : dictKeys (detect_pii dets text methods) =
      distinctKnownFirst (fun m => (dets m).isSome) [] methods := by
    rw [detect_pii]
    rw [h]
    rfl
  exact ⟨hkeys, hkeys ▸ (distinctKnownFirst_nodup _ methods []).1⟩

/-- Helper: membership in a fold of labelled insertions. -/
theorem mem_foldl_insert (g : String → String) :
    ∀ (l : List String) (init : Finset String) (s : String),
      s ∈ l.foldl (fun fs v => insert (g v) fs) init ↔
        s ∈ init ∨ ∃ v ∈ l, s = g v := by
  intro l
  induction l with
  | nil => intro init s; simp
  | cons x xs ih =>
      intro init s
      rw [List.foldl_cons, ih]
      simp only [Finset.mem_insert, List.mem_cons]
      constructor
      · rintro (⟨h | h⟩ | ⟨v, hv, hs⟩)
        · exact Or.inr ⟨x, Or.inl rfl, h⟩
        · exact Or.inl h
        · exact Or.inr ⟨v, Or.inr hv, hs⟩
      · rintro (h | ⟨v, hv | hv, hs⟩)
        · exact Or.inl (Or.inr h)
        · exact Or.inl (Or.inl (hv ▸ hs))
        · exact Or.inr ⟨v, hv, hs⟩

/-- Helper: membership in the pattern-table fold shared by `detect` and
`detectClaimC1`, for any per-pattern value list. -/
theorem mem_patFold (val : String × RE → List String) :
    ∀ (pats : List (String × RE)) (init : Finset String) (s : String),
      s ∈ pats.foldl
          (fun fs p => (val p).foldl (fun fs2 v => insert (p.1 ++ ": " ++ v) fs2) fs)
          init ↔
        s ∈ init ∨ ∃ p ∈ pats, ∃ v ∈ val p, s = p.1 ++ ": " ++ v := by
  intro pats
  induction pats with
  | nil => intro init s; simp
  | cons p ps ih =>
      intro init s
      rw [List.foldl_cons, ih, mem_foldl_insert]
      simp only [List.mem_cons]
      constructor
      · rintro (⟨h | ⟨v, hv, hs⟩⟩ | ⟨q, hq, v, hv, hs⟩)
        · exact Or.inl h
        · exact Or.inr ⟨p, Or.inl rfl, v, hv, hs⟩
        · exact Or.inr ⟨q, Or.inr hq, v, hv, hs⟩
      · rintro (h | ⟨q, hq | hq, v, hv, hs⟩)
        · exact Or.inl (Or.inl h)
        · exact Or.inl (Or.inr ⟨v, hq ▸ hv, hq ▸ hs⟩)
        · exact Or.inr ⟨q, hq, v, hv, hs⟩

/-- Helper: membership characterization of `RegexPIIDetector.detect`. -/
theorem mem_detect_iff (text s : String) :
    s ∈ detect text ↔
      ∃ p ∈ piiPatterns, ∃ v ∈ pyFindall p.2 text, s = p.1 ++ ": " ++ v := by
  rw [detect, mem_patFold (fun p => pyFindall p.2 text) piiPatterns ∅ s]
  simp

/-- Helper: membership characterization of the claim-side set of C1. -/
theorem mem_detectClaimC1_iff (text s : String) :
    s ∈ detectClaimC1 text ↔
      ∃ p ∈ piiPatterns, ∃ v ∈ matchSpans p.2 text, s = p.1 ++ ": " ++ v := by
  rw [detectClaimC1, mem_patFold (fun p => matchSpans p.2 text) piiPatterns ∅ s]
  simp

/-- Helper: for a pattern without capture groups the `findall` values are the
matched spans themselves. -/
theorem findallAux_eq_matchSpansAux (r : RE) (h : numGroups r = 0) :
    ∀ (f : Nat) (t : List Char) (pos : Nat),
      findallAux f r t pos = matchSpansAux f r t pos := by
  intro f
  induction f with
  | zero => intro t pos; rfl
  | succ f ih =>
      intro t pos
      rw [findallAux, matchSpansAux]
      by_cases hle : pos ≤ t.length
      · rw [if_pos hle, if_pos hle]
        cases hm : (mtch r t pos []).head? with
        | none => simp only [hm]; exact ih t (pos + 1)
        | some ec => simp [hm, reValue, h, ih]
      · rw [if_neg hle, if_neg hle]

/-- Counterexample to C1 as stated: on the text `"555-123-4567"` the Phone
pattern matches the whole text, but `re.findall` reports the (absent) first
capture group, so the detector returns the finding `"Phone: "` and not
`"Phone: 555-123-4567"`, while the claim's set contains exactly the
latter. -/
theorem claim_C1_counterexample :
    "Phone: " ∈ detect "555-123-4567" ∧
    "Phone: 555-123-4567" ∉ detect "555-123-4567" ∧
    "Phone: 555-123-4567" ∈ detectClaimC1 "555-123-4567" ∧
    detect "555-123-4567" ≠ detectClaimC1 "555-123-4567" := by
  have h1 : "Phone: " ∈ detect "555-123-4567" :=
    (mem_detect_iff "555-123-4567" "Phone: ").mpr (by decide)
  have h2 : "Phone: 555-123-4567" ∉ detect "555-123-4567" := by
    intro h
    exact absurd ((mem_detect_iff "555-123-4567" "Phone: 555-123-4567").mp h) (by decide)
  have h3 : "Phone: 555-123-4567" ∈ detectClaimC1 "555-123-4567" :=
    (mem_detectClaimC1_iff "555-123-4567" "Phone: 555-123-4567").mpr (by decide)
  exact ⟨h1, h2, h3, fun he => h2 (he ▸ h3)⟩

/-- Claim C1 as amended: `detect` returns exactly the findings `"K: v"` where
`v` ranges over the values `re.findall` yields for `K`'s pattern — for the
five group-free patterns these are the matched spans themselves, while for
`Phone` (whose pattern has a capture group) they are the group captures. -/
theorem claim_C1 :
    (∀ text s : String,
      s ∈ detect text ↔
        ∃ p ∈ piiPatterns, ∃ v ∈ pyFindall p.2 text, s = p.1 ++ ": " ++ v) ∧
    (∀ p ∈ piiPatterns, numGroups p.2 = 0 →
      ∀ text : String, pyFindall p.2 text = matchSpans p.2 text) := by
  constructor
  · exact mem_detect_iff
  · intro p _ h text
    exact findallAux_eq_matchSpansAux p.2 h (text.data.length + 1) text.data 0

/-- Witness for C1 (amended): the Email pattern is group-free, so its
`findall` values are matched spans. -/
theorem claim_C1_witness :
    pyFindall emailRE "a@b.co" = matchSpans emailRE "a@b.co" :=
  claim_C1.2 ("Email", emailRE) (by decide) rfl "a@b.co"

/-- Modelled from the spec wording of C7: each strategy's report section is
its capitalized name followed by its findings sorted lexicographically, or a
notice when the findings set is empty. -/
def specSection (name : String) (findings : Finset String) : List String :=
  ("\n" ++ pyCapitalize name ++ " Detector:") ::
    (if findings = ∅ then ["  No PII detected."]
     else (findings.sort (· ≤ ·)).map (fun f => "  - " ++ f))

/-- Modelled from the spec wording of C7: the whole report is the header,
each strategy's section in order, and the footer. -/
def displaySpecC7 (results : List (String × Finset String)) : List String :=
  ["\n=== PII Detection Results ==="] ++
    results.flatMap (fun mr => specSection mr.1 mr.2) ++
    ["\n============================"]

/-- Helper: the empty-findings notice is never a section header line. -/
theorem notice_ne_header (name : String) :
    "  No PII detected." = "\n" ++ pyCapitalize name ++ " Detector:" → False := by
  intro h
  have h2 := congrArg (fun s => s.data.head?) h
  simp only [String.data_append] at h2
  have h3 : ("\n".data ++ (pyCapitalize name).data ++ " Detector:".data).head? =
      some '\n' := rfl
  rw [h3] at h2
  exact absurd h2 (by decide)

/-- Helper: the empty-findings notice is never a finding line. -/
theorem notice_ne_item (f : String) :
    "  - " ++ f = "  No PII detected." → False := by
  intro h
  have h2 := congrArg (fun s => s.data[2]?) h
  simp only [String.data_append] at h2
  have h3 : ("  - ".data ++ f.data)[2]? = some '-' := by
    rw [List.getElem?_append_left (by decide : (2 : Nat) < "  - ".data.length)]
    rfl
  rw [h3] at h2
  exact absurd h2 (by decide)

/-- Helper: the notice appears in a strategy's section exactly when that
strategy's findings set is empty. -/
theorem notice_mem_specSection (name : String) (fs : Finset String) :
    "  No PII detected." ∈ specSection name fs ↔ fs = ∅ := by
  rw [specSection]
  constructor
  · intro h
    rcases List.mem_cons.mp h with heq | hin
    · exact absurd heq (notice_ne_header name)
    · by_cases hfs : fs = ∅
      · exact hfs
      · rw [if_neg hfs] at hin
        obtain ⟨f, _, hf⟩ := List.mem_map.mp hin
        exact absurd hf (notice_ne_item f)
  · intro h
    rw [if_pos h]
    exact List.mem_cons_of_mem _ (List.mem_singleton.mpr rfl)

/-- Helper: a pattern fold over empty value lists inserts nothing. -/
theorem patFold_empty (val : String × RE → List String) :
    ∀ (pats : List (String × RE)) (init : Finset String),
      (∀ p ∈ pats, val p = []) →
      pats.foldl
          (fun fs p => (val p).foldl (fun fs2 v => insert (p.1 ++ ": " ++ v) fs2) fs)
          init = init := by
  intro pats
  induction pats with
  | nil => intro init _; rfl
  | cons p ps ih =>
      intro init h
      rw [List.foldl_cons, h p (List.mem_cons_self p ps)]
      exact ih init (fun q hq => h q (List.mem_cons_of_mem p hq))

/-- Claim C7: the report printed by `display_results` is, per invoked
strategy, its capitalized name followed by its findings sorted
lexicographically, with the no-PII notice appearing exactly for the
strategies whose findings set is empty; and a text on which no pattern has a
match gives the regex detector the empty findings set, so it gets that
notice. -/
theorem claim_C7 :
    (∀ results : List (String × Finset String),
      display_results results = displaySpecC7 results) ∧
    (∀ results : List (String × Finset String),
      "  No PII detected." ∈ display_results results ↔ ∃ mr ∈ results, mr.2 = ∅) ∧
    (∀ text : String,
      (∀ p ∈ piiPatterns, pyFindall p.2 text = []) → detect text = ∅) := by
  have hsec : ∀ mr : String × Finset String,
      (("\n" ++ pyCapitalize mr.1 ++ " Detector:") ::
        (if mr.2.Nonempty then (mr.2.sort (· ≤ ·)).map (fun f => "  - " ++ f)
         else ["  No PII detected."])) = specSection mr.1 mr.2 := by
    intro mr
    rw [specSection]
    by_cases h : mr.2 = ∅
    · simp [h]
    · simp [h, Finset.nonempty_iff_ne_empty.mpr h]
  have hdisp : ∀ results : List (String × Finset String),
      display_results results = displaySpecC7 results := by
    intro results
    rw [display_results, displaySpecC7]
    congr 1
    congr 1
    exact List.flatMap_congr (fun mr _ => hsec mr)
  refine ⟨hdisp, ?_, ?_⟩
  · intro results
    rw [hdisp, displaySpecC7]
    constructor
    · intro hmem
      rcases List.mem_append.mp hmem with hL | hR
      · rcases List.mem_append.mp hL with hH | hF
        · exact absurd (List.mem_singleton.mp hH) (by decide)
        · obtain ⟨mr, hmr, hin⟩ := List.mem_flatMap.mp hF
          exact ⟨mr, hmr, (notice_mem_specSection mr.1 mr.2).mp hin⟩
      · exact absurd (List.mem_singleton.mp hR) (by decide)
    · rintro ⟨mr, hmr, hempty⟩
      refine List.mem_append.mpr (Or.inl (List.mem_append.mpr (Or.inr ?_)))
      exact List.mem_flatMap.mpr
        ⟨mr, hmr, (notice_mem_specSection mr.1 mr.2).mpr hempty⟩
  · intro text h
    rw [detect]
    exact patFold_empty (fun p => pyFindall p.2 text) piiPatterns ∅ h

/-- Witness for C7: the text `"hello"` has no match under any pattern, so the
regex detector returns the empty set (and would get the notice). -/
theorem claim_C7_witness : detect "hello" = ∅ :=
  claim_C7.2.2 "hello" (by decide)

/-- Characters of the Email pattern's local-part class. -/
def isLocalChar (c : Char) : Bool := memCls c localCls

/-- Characters of the Email pattern's domain class. -/
def isDomainChar (c : Char) : Bool := memCls c domainCls

/-- ASCII letter ranges. -/
def letterCls : List (Char × Char) := [('A', 'Z'), ('a', 'z')]

/-- ASCII letter test. -/
def isAsciiLetter (c : Char) : Bool := memCls c letterCls

/-- Every character that can occur inside a match of the Email pattern:
the local-part class (a superset of the domain class and of the letters)
together with `@` and the literal `|` of the trailing class. -/
def emailGlyphCls : List (Char × Char) :=
  [('A', 'Z'), ('a', 'z'), ('0', '9'), ('.', '.'), ('_', '_'), ('%', '%'),
    ('+', '+'), ('-', '-'), ('@', '@'), ('|', '|')]

/-- Test for characters that can occur inside a match of the Email pattern. -/
def isEmailGlyph (c : Char) : Bool := memCls c emailGlyphCls

/-- A well-formed email address in the sense of the Email pattern:
a non-empty local part of local-class characters starting with a word
character, `@`, a non-empty domain of domain-class characters, a dot, and a
trailing part of at least two ASCII letters. -/
def EmailWF (l m tl : List Char) : Prop :=
  l ≠ [] ∧ (∀ c ∈ l, isLocalChar c = true) ∧
    (∀ c ∈ l.take 1, isWordChar c = true) ∧
  m ≠ [] ∧ (∀ c ∈ m, isDomainChar c = true) ∧
  2 ≤ tl.length ∧ (∀ c ∈ tl, isAsciiLetter c = true)

/-- Code point of `A`. -/
theorem charVal_A : ('A' : Char).toNat = 65 := rfl

/-- Code point of `Z`. -/
theorem charVal_Z : ('Z' : Char).toNat = 90 := rfl

/-- Code point of `a`. -/
theorem charVal_a : ('a' : Char).toNat = 97 := rfl

/-- Code point of `z`. -/
theorem charVal_z : ('z' : Char).toNat = 122 := rfl

/-- Code point of `0`. -/
theorem charVal_0 : ('0' : Char).toNat = 48 := rfl

/-- Code point of `9`. -/
theorem charVal_9 : ('9' : Char).toNat = 57 := rfl

/-- Code point of the dot. -/
theorem charVal_dot : ('.' : Char).toNat = 46 := rfl

/-- Code point of the underscore. -/
theorem charVal_us : ('_' : Char).toNat = 95 := rfl

/-- Code point of the percent sign. -/
theorem charVal_pct : ('%' : Char).toNat = 37 := rfl

/-- Code point of the plus sign. -/
theorem charVal_plus : ('+' : Char).toNat = 43 := rfl

/-- Code point of the hyphen. -/
theorem charVal_dash : ('-' : Char).toNat = 45 := rfl

/-- Code point of the at sign. -/
theorem charVal_at : ('@' : Char).toNat = 64 := rfl

/-- Code point of the vertical bar. -/
theorem charVal_bar : ('|' : Char).toNat = 124 := rfl

/-- Helper: word characters belong to the local-part class. -/
theorem word_local (c : Char) (h : isWordChar c = true) : isLocalChar c = true := by
  simp only [isWordChar, isLocalChar, memCls, wordCls, localCls, List.any_cons,
    List.any_nil, Bool.or_eq_true, Bool.and_eq_true, decide_eq_true_eq,
    Bool.false_eq_true, or_false, charVal_A, charVal_Z, charVal_a, charVal_z,
    charVal_0, charVal_9, charVal_dot, charVal_us, charVal_pct, charVal_plus,
    charVal_dash] at h ⊢
  omega

/-- Helper: domain-class characters belong to the local-part class. -/
theorem domain_local (c : Char) (h : isDomainChar c = true) : isLocalChar c = true := by
  simp only [isDomainChar, isLocalChar, memCls, domainCls, localCls, List.any_cons,
    List.any_nil, Bool.or_eq_true, Bool.and_eq_true, decide_eq_true_eq,
    Bool.false_eq_true, or_false, charVal_A, charVal_Z, charVal_a, charVal_z,
    charVal_0, charVal_9, charVal_dot, charVal_us, charVal_pct, charVal_plus,
    charVal_dash] at h ⊢
  omega

/-- Helper: letters belong to the domain class. -/
theorem letter_domain (c : Char) (h : isAsciiLetter c = true) : isDomainChar c = true := by
  simp only [isAsciiLetter, isDomainChar, memCls, letterCls, domainCls, List.any_cons,
    List.any_nil, Bool.or_eq_true, Bool.and_eq_true, decide_eq_true_eq,
    Bool.false_eq_true, or_false, charVal_A, charVal_Z, charVal_a, charVal_z,
    charVal_0, charVal_9, charVal_dot, charVal_dash] at h ⊢
  omega

/-- Helper: letters belong to the trailing class of the Email pattern. -/
theorem letter_tld (c : Char) (h : isAsciiLetter c = true) : memCls c tldCls = true := by
  simp only [isAsciiLetter, memCls, letterCls, tldCls, List.any_cons,
    List.any_nil, Bool.or_eq_true, Bool.and_eq_true, decide_eq_true_eq,
    Bool.false_eq_true, or_false, charVal_A, charVal_Z, charVal_a, charVal_z,
    charVal_bar] at h ⊢
  omega

/-- Helper: letters are word characters. -/
theorem letter_word (c : Char) (h : isAsciiLetter c = true) : isWordChar c = true := by
  simp only [isAsciiLetter, isWordChar, memCls, letterCls, wordCls, List.any_cons,
    List.any_nil, Bool.or_eq_true, Bool.and_eq_true, decide_eq_true_eq,
    Bool.false_eq_true, or_false, charVal_A, charVal_Z, charVal_a, charVal_z,
    charVal_0, charVal_9, charVal_us] at h ⊢
  omega

/-- Helper: letters are not the dot. -/
theorem letter_not_dot (c : Char) (h : isAsciiLetter c = true) :
    memCls c [('.', '.')] = false := by
  rw [Bool.eq_false_iff]
  simp only [isAsciiLetter, memCls, letterCls, List.any_cons, List.any_nil,
    Bool.or_eq_true, Bool.and_eq_true, decide_eq_true_eq, Bool.false_eq_true,
    or_false, ne_eq, charVal_A, charVal_Z, charVal_a, charVal_z, charVal_dot] at h ⊢
  omega

/-- Helper: local-part characters are email glyphs. -/
theorem local_glyph (c : Char) (h : isLocalChar c = true) : isEmailGlyph c = true := by
  simp only [isLocalChar, isEmailGlyph, memCls, localCls, emailGlyphCls, List.any_cons,
    List.any_nil, Bool.or_eq_true, Bool.and_eq_true, decide_eq_true_eq,
    Bool.false_eq_true, or_false, charVal_A, charVal_Z, charVal_a, charVal_z,
    charVal_0, charVal_9, charVal_dot, charVal_us, charVal_pct, charVal_plus,
    charVal_dash, charVal_at, charVal_bar] at h ⊢
  omega

/-- Helper: trailing-class characters are email glyphs. -/
theorem tld_glyph (c : Char) (h : memCls c tldCls = true) : isEmailGlyph c = true := by
  simp only [isEmailGlyph, memCls, tldCls, emailGlyphCls, List.any_cons,
    List.any_nil, Bool.or_eq_true, Bool.and_eq_true, decide_eq_true_eq,
    Bool.false_eq_true, or_false, charVal_A, charVal_Z, charVal_a, charVal_z,
    charVal_0, charVal_9, charVal_dot, charVal_us, charVal_pct, charVal_plus,
    charVal_dash, charVal_at, charVal_bar] at h ⊢
  omega

/-- Helper: the at sign is an email glyph. -/
theorem atCls_glyph (c : Char) (h : memCls c [('@', '@')] = true) :
    isEmailGlyph c = true := by
  simp only [isEmailGlyph, memCls, emailGlyphCls, List.any_cons,
    List.any_nil, Bool.or_eq_true, Bool.and_eq_true, decide_eq_true_eq,
    Bool.false_eq_true, or_false, charVal_A, charVal_Z, charVal_a, charVal_z,
    charVal_0, charVal_9, charVal_dot, charVal_us, charVal_pct, charVal_plus,
    charVal_dash, charVal_at, charVal_bar] at h ⊢
  omega

/-- Helper: the dot is an email glyph. -/
theorem dotCls_glyph (c : Char) (h : memCls c [('.', '.')] = true) :
    isEmailGlyph c = true := by
  simp only [isEmailGlyph, memCls, emailGlyphCls, List.any_cons,
    List.any_nil, Bool.or_eq_true, Bool.and_eq_true, decide_eq_true_eq,
    Bool.false_eq_true, or_false, charVal_A, charVal_Z, charVal_a, charVal_z,
    charVal_0, charVal_9, charVal_dot, charVal_us, charVal_pct, charVal_plus,
    charVal_dash, charVal_at, charVal_bar] at h ⊢
  omega

/-- Helper: a non-glyph is not a word character. -/
theorem notGlyph_word (c : Char) (h : isEmailGlyph c = false) :
    isWordChar c = false := by
  cases hw : isWordChar c with
  | false => rfl
  | true => rw [local_glyph c (word_local c hw)] at h; exact absurd h (by simp)

/-- Helper: a non-glyph is not in the local-part class. -/
theorem notGlyph_local (c : Char) (h : isEmailGlyph c = false) :
    isLocalChar c = false := by
  cases hw : isLocalChar c with
  | false => rfl
  | true => rw [local_glyph c hw] at h; exact absurd h (by simp)

/-- Helper: a non-glyph is not in the domain class. -/
theorem notGlyph_domain (c : Char) (h : isEmailGlyph c = false) :
    isDomainChar c = false := by
  cases hw : isDomainChar c with
  | false => rfl
  | true => rw [local_glyph c (domain_local c hw)] at h; exact absurd h (by simp)

/-- Helper: a non-glyph is not in the trailing class. -/
theorem notGlyph_tld (c : Char) (h : isEmailGlyph c = false) :
    memCls c tldCls = false := by
  cases hw : memCls c tldCls with
  | false => rfl
  | true => rw [tld_glyph c hw] at h; exact absurd h (by simp)

/-- Helper: a non-glyph is not the dot. -/
theorem notGlyph_dot (c : Char) (h : isEmailGlyph c = false) :
    memCls c [('.', '.')] = false := by
  cases hw : memCls c [('.', '.')] with
  | false => rfl
  | true => rw [dotCls_glyph c hw] at h; exact absurd h (by simp)

/-- Helper: a non-glyph is not the at sign. -/
theorem notGlyph_at (c : Char) (h : isEmailGlyph c = false) :
    memCls c [('@', '@')] = false := by
  cases hw : memCls c [('@', '@')] with
  | false => rfl
  | true => rw [atCls_glyph c hw] at h; exact absurd h (by simp)

/-- End positions `pos + lo + n - 1, …, pos + lo` (descending), the shape of
the result list of a greedy repetition of a character class. -/
def descEnds (pos lo : Nat) : Nat → List Nat
  | 0 => []
  | n + 1 => (pos + lo + n) :: descEnds pos lo n

/-- Helper: membership in `descEnds`. -/
theorem mem_descEnds (pos lo : Nat) :
    ∀ (n : Nat) (x : Nat), x ∈ descEnds pos lo n ↔ ∃ i, i < n ∧ x = pos + lo + i := by
  intro n
  induction n with
  | zero => intro x; simp [descEnds]
  | succ n ih =>
      intro x
      simp only [descEnds, List.mem_cons, ih]
      constructor
      · rintro (rfl | ⟨i, hi, rfl⟩)
        · exact ⟨n, Nat.lt_succ_self n, rfl⟩
        · exact ⟨i, Nat.lt_succ_of_lt hi, rfl⟩
      · rintro ⟨i, hi, rfl⟩
        rcases Nat.lt_succ_iff_lt_or_eq.mp hi with h | rfl
        · exact Or.inr ⟨i, h, rfl⟩
        · exact Or.inl rfl

/-- Helper: shifting the base of `descEnds`. -/
theorem descEnds_shift (pos lo : Nat) :
    ∀ n : Nat, descEnds (pos + 1) lo n = descEnds pos (lo + 1) n := by
  intro n
  induction n with
  | zero => rfl
  | succ n ih =>
      show (pos + 1 + lo + n) :: descEnds (pos + 1) lo n =
        (pos + (lo + 1) + n) :: descEnds pos (lo + 1) n
      rw [ih, show pos + 1 + lo + n = pos + (lo + 1) + n from by omega]

/-- Helper: peeling the final (shortest) end off a greedy star. -/
theorem descEnds_zero_succ (pos : Nat) :
    ∀ n : Nat, descEnds pos 0 (n + 1) = descEnds pos 1 n ++ [pos] := by
  intro n
  induction n with
  | zero => simp [descEnds]
  | succ n ih =>
      have h1 : descEnds pos 0 (n + 1 + 1) = (pos + 0 + (n + 1)) :: descEnds pos 0 (n + 1) :=
        rfl
      rw [h1, ih]
      have h2 : descEnds pos 1 (n + 1) ++ [pos] =
          ((pos + 1 + n) :: descEnds pos 1 n) ++ [pos] := rfl
      rw [h2]
      simp only [List.cons_append]
      rw [show pos + 0 + (n + 1) = pos + 1 + n from by omega]

/-- Helper: splitting `descEnds` at an intermediate count. -/
theorem descEnds_split (pos lo : Nat) :
    ∀ (n j : Nat), j ≤ n →
      descEnds pos lo n = descEnds pos (lo + j) (n - j) ++ descEnds pos lo j := by
  intro n
  induction n with
  | zero => intro j hj; interval_cases j; simp [descEnds]
  | succ n ih =>
      intro j hj
      rcases Nat.lt_succ_iff_lt_or_eq.mp (Nat.lt_succ_of_le hj) with h | rfl
      · have hj2 : j ≤ n := by omega
        have h1 : descEnds pos lo (n + 1) = (pos + lo + n) :: descEnds pos lo n := rfl
        rw [h1, ih j hj2]
        have hc : n + 1 - j = (n - j) + 1 := by omega
        rw [hc]
        have h2 : descEnds pos (lo + j) ((n - j) + 1) =
            (pos + (lo + j) + (n - j)) :: descEnds pos (lo + j) (n - j) := rfl
        rw [h2]
        simp only [List.cons_append]
        rw [show pos + lo + n = pos + (lo + j) + (n - j) from by omega]
      · simp [descEnds, Nat.sub_self]

/-- Length of the maximal run of class characters at a position (the longest
stretch a greedy class repetition can consume). -/
def runLen (rs : List (Char × Char)) (t : List Char) (pos : Nat) : Nat :=
  ((t.drop pos).takeWhile (fun c => memCls c rs)).length

/-- Helper: the run is bounded by the text. -/
theorem runLen_le (rs : List (Char × Char)) (t : List Char) (pos : Nat) :
    runLen rs t pos ≤ t.length - pos := by
  have h := (List.takeWhile_sublist (fun c => memCls c rs) (l := t.drop pos)).length_le
  simpa [runLen] using h

/-- Helper: a run starting on a class character extends the following run. -/
theorem runLen_succ (rs : List (Char × Char)) (t : List Char) (pos : Nat) (c : Char)
    (hc : t[pos]? = some c) (hm : memCls c rs = true) :
    runLen rs t pos = runLen rs t (pos + 1) + 1 := by
  obtain ⟨hlt, hg⟩ := List.getElem?_eq_some.mp hc
  rw [runLen, runLen, List.drop_eq_getElem_cons hlt, List.takeWhile_cons, hg, hm]
  simp

/-- Helper: the run is empty past the end of the text. -/
theorem runLen_zero_none (rs : List (Char × Char)) (t : List Char) (pos : Nat)
    (hc : t[pos]? = none) : runLen rs t pos = 0 := by
  have hlen : t.length ≤ pos := by
    by_contra h
    rw [List.getElem?_eq_getElem (by omega)] at hc
    exact absurd hc (by simp)
  rw [runLen, List.drop_eq_nil_of_le hlen]
  rfl

/-- Helper: the run is empty on a non-class character. -/
theorem runLen_zero_fail (rs : List (Char × Char)) (t : List Char) (pos : Nat) (c : Char)
    (hc : t[pos]? = some c) (hm : memCls c rs = false) : runLen rs t pos = 0 := by
  obtain ⟨hlt, hg⟩ := List.getElem?_eq_some.mp hc
  rw [runLen, List.drop_eq_getElem_cons hlt, List.takeWhile_cons, hg, hm]
  rfl

/-- Helper: every position inside the run holds a class character. -/
theorem runLen_get (rs : List (Char × Char)) (t : List Char) :
    ∀ (i pos : Nat), i < runLen rs t pos →
      ∃ c, t[pos + i]? = some c ∧ memCls c rs = true := by
  intro i
  induction i with
  | zero =>
      intro pos hi
      cases hc : t[pos]? with
      | none => rw [runLen_zero_none rs t pos hc] at hi; omega
      | some c =>
          cases hm : memCls c rs with
          | false => rw [runLen_zero_fail rs t pos c hc hm] at hi; omega
          | true => exact ⟨c, hc, hm⟩
  | succ i ih =>
      intro pos hi
      cases hc : t[pos]? with
      | none => rw [runLen_zero_none rs t pos hc] at hi; omega
      | some c =>
          cases hm : memCls c rs with
          | false => rw [runLen_zero_fail rs t pos c hc hm] at hi; omega
          | true =>
              rw [runLen_succ rs t pos c hc hm] at hi
              obtain ⟨c2, hc2, hm2⟩ := ih (pos + 1) (by omega)
              exact ⟨c2, by rw [show pos + (i + 1) = pos + 1 + i by omega]; exact hc2, hm2⟩

/-- Helper: class step on a matching character. -/
theorem clsStep_some (rs : List (Char × Char)) (t : List Char) (pos : Nat) (cp : Caps)
    (c : Char) (hc : t[pos]? = some c) (hm : memCls c rs = true) :
    clsStep rs t pos cp = [(pos + 1, cp)] := by
  simp [clsStep, hc, hm]

/-- Helper: class step on a non-matching character. -/
theorem clsStep_fail (rs : List (Char × Char)) (t : List Char) (pos : Nat) (cp : Caps)
    (c : Char) (hc : t[pos]? = some c) (hm : memCls c rs = false) :
    clsStep rs t pos cp = [] := by
  simp [clsStep, hc, hm]

/-- Helper: class step past the end of the text. -/
theorem clsStep_none (rs : List (Char × Char)) (t : List Char) (pos : Nat) (cp : Caps)
    (hc : t[pos]? = none) : clsStep rs t pos cp = [] := by
  simp [clsStep, hc]

/-- Helper: what membership in a class step implies. -/
theorem mem_clsStep (rs : List (Char × Char)) (t : List Char) (pos : Nat) (cp : Caps)
    (ec : Nat × Caps) (h : ec ∈ clsStep rs t pos cp) :
    ec.2 = cp ∧ ec.1 = pos + 1 ∧ ∃ c, t[pos]? = some c ∧ memCls c rs = true := by
  cases hc : t[pos]? with
  | none =>
      rw [clsStep_none rs t pos cp hc] at h
      exact absurd h (List.not_mem_nil ec)
  | some c =>
      cases hm : memCls c rs with
      | false =>
          rw [clsStep_fail rs t pos cp c hc hm] at h
          exact absurd h (List.not_mem_nil ec)
      | true =>
          rw [clsStep_some rs t pos cp c hc hm] at h
          rw [List.mem_singleton] at h
          subst h
          exact ⟨rfl, rfl, c, rfl, hm⟩

/-- Helper: what membership in a word-boundary step implies. -/
theorem mem_wbStep (t : List Char) (pos : Nat) (cp : Caps) (ec : Nat × Caps)
    (h : ec ∈ wbStep t pos cp) : ec.2 = cp ∧ ec.1 = pos ∧ atWB t pos = true := by
  rw [wbStep] at h
  cases hb : atWB t pos with
  | false => rw [hb] at h; exact absurd h (by simp)
  | true =>
      rw [hb] at h
      simp only [if_true, List.mem_singleton] at h
      subst h
      exact ⟨rfl, rfl, rfl⟩

/-- Helper: the matcher of a greedy unbounded class repetition lists the end
positions from the full run down to the minimum, captures untouched. -/
theorem repcls_eq (rs : List (Char × Char)) (t : List Char) :
    ∀ (cnt pos lo : Nat) (cp : Caps), runLen rs t pos + 1 ≤ cnt →
      repIter (fun p2 c2 => mtch (.cls rs) t p2 c2) cnt lo none false pos cp =
        (descEnds pos lo (runLen rs t pos + 1 - lo)).map (fun e => (e, cp)) := by
  intro cnt
  induction cnt with
  | zero => intro pos lo cp h; omega
  | succ cnt ih =>
      intro pos lo cp h
      have hbody : ∀ p2 c2, mtch (.cls rs) t p2 c2 = clsStep rs t p2 c2 := fun _ _ => rfl
      rcases hzero : t[pos]? with _ | c
      · have hr : runLen rs t pos = 0 := runLen_zero_none rs t pos hzero
        cases lo with
        | zero =>
            rw [repIter, hbody, clsStep_none rs t pos cp hzero]
            simp [hr, descEnds]
        | succ k =>
            rw [repIter, hbody, clsStep_none rs t pos cp hzero]
            simp [hr, descEnds, Nat.sub_eq_zero_of_le (by omega : 0 + 1 ≤ k + 1)]
      · rcases hmem : memCls c rs with _ | _
        · have hr : runLen rs t pos = 0 := runLen_zero_fail rs t pos c hzero hmem
          cases lo with
          | zero =>
              rw [repIter, hbody, clsStep_fail rs t pos cp c hzero hmem]
              simp [hr, descEnds]
          | succ k =>
              rw [repIter, hbody, clsStep_fail rs t pos cp c hzero hmem]
              simp [hr, descEnds, Nat.sub_eq_zero_of_le (by omega : 0 + 1 ≤ k + 1)]
        · have hr : runLen rs t pos = runLen rs t (pos + 1) + 1 :=
            runLen_succ rs t pos c hzero hmem
          have hcnt : runLen rs t (pos + 1) + 1 ≤ cnt := by omega
          cases lo with
          | zero =>
              have hsplit : descEnds pos 0 (runLen rs t pos + 1 - 0) =
                  descEnds (pos + 1) 0 (runLen rs t (pos + 1) + 1 - 0) ++ [pos] := by
                rw [hr]
                rw [show runLen rs t (pos + 1) + 1 + 1 - 0 =
                  (runLen rs t (pos + 1) + 1 - 0) + 1 from by omega]
                rw [descEnds_zero_succ pos (runLen rs t (pos + 1) + 1 - 0)]
                rw [descEnds_shift pos 0 (runLen rs t (pos + 1) + 1 - 0)]
              rw [repIter, hbody, clsStep_some rs t pos cp c hzero hmem]
              simp only [Bool.false_eq_true, if_false, List.flatMap_cons, List.flatMap_nil,
                List.append_nil, optPred, Option.map_none]
              rw [if_neg (by omega : ¬pos + 1 = pos)]
              rw [ih (pos + 1) 0 cp hcnt]
              rw [hsplit, List.map_append]
              rfl
          | succ k =>
              rw [repIter, hbody, clsStep_some rs t pos cp c hzero hmem]
              simp only [List.flatMap_cons, List.flatMap_nil, List.append_nil]
              rw [show optPred none = none from rfl]
              rw [ih (pos + 1) k cp hcnt]
              rw [← descEnds_shift pos k]
              rw [show runLen rs t (pos + 1) + 1 - k = runLen rs t pos + 1 - (k + 1) from by
                omega]

/-- Helper: the matcher view of a greedy unbounded class repetition. -/
theorem mtch_repcls (rs : List (Char × Char)) (t : List Char) (pos lo : Nat) (cp : Caps) :
    mtch (.rep (.cls rs) lo none false) t pos cp =
      (descEnds pos lo (runLen rs t pos + 1 - lo)).map (fun e => (e, cp)) := by
  show repIter (fun p2 c2 => mtch (.cls rs) t p2 c2) (lo + t.length + 1) lo none false pos cp =
    _
  apply repcls_eq
  have := runLen_le rs t pos
  omega

/-- Helper: membership for a greedy unbounded class repetition. -/
theorem mem_mtch_repcls (rs : List (Char × Char)) (t : List Char) (pos lo : Nat)
    (cp : Caps) (ec : Nat × Caps) :
    ec ∈ mtch (.rep (.cls rs) lo none false) t pos cp ↔
      ec.2 = cp ∧ ∃ k, lo ≤ k ∧ k ≤ runLen rs t pos ∧ ec.1 = pos + k := by
  rw [mtch_repcls, List.mem_map]
  constructor
  · rintro ⟨x, hx, rfl⟩
    obtain ⟨i, hi, rfl⟩ := (mem_descEnds pos lo _ x).mp hx
    exact ⟨rfl, lo + i, by omega, by omega, (by omega : pos + lo + i = pos + (lo + i))⟩
  · rintro ⟨hcp, k, hk1, hk2, hk3⟩
    refine ⟨pos + k, (mem_descEnds pos lo _ _).mpr ⟨k - lo, by omega, by omega⟩, ?_⟩
    rw [← hk3, ← hcp]

/-- Helper: membership in a sequence match. -/
theorem mem_mtch_seq (a b : RE) (t : List Char) (pos : Nat) (cp : Caps) (ec : Nat × Caps) :
    ec ∈ mtch (.seq a b) t pos cp ↔
      ∃ ec1 ∈ mtch a t pos cp, ec ∈ mtch b t ec1.1 ec1.2 := by
  show ec ∈ (mtch a t pos cp).flatMap (fun ec1 => mtch b t ec1.1 ec1.2) ↔ _
  exact List.mem_flatMap

/-- Helper: a flat map over failing continuations is empty. -/
theorem flatMap_nil_of_forall {α β : Type} (L : List α) (g : α → List β)
    (h : ∀ x ∈ L, g x = []) : L.flatMap g = [] := by
  induction L with
  | nil => rfl
  | cons x xs ih =>
      rw [List.flatMap_cons, h x (List.mem_cons_self x xs), List.nil_append]
      exact ih (fun y hy => h y (List.mem_cons_of_mem x hy))

/-- Trailing fragment of the Email pattern: `[A-Z|a-z]{2,}\b`. -/
def emailTld : RE := .seq (.rep (.cls tldCls) 2 none false) .wb

/-- Fragment `\.[A-Z|a-z]{2,}\b` of the Email pattern. -/
def emailDotTld : RE := .seq (.cls [('.', '.')]) emailTld

/-- Fragment `[A-Za-z0-9.-]+\.[A-Z|a-z]{2,}\b` of the Email pattern. -/
def emailDomain : RE := .seq (.rep (.cls domainCls) 1 none false) emailDotTld

/-- Fragment `@[A-Za-z0-9.-]+\.[A-Z|a-z]{2,}\b` of the Email pattern. -/
def emailAtDomain : RE := .seq (.cls [('@', '@')]) emailDomain

/-- Fragment `[A-Za-z0-9._%+-]+@…\b` of the Email pattern. -/
def emailLocal : RE := .seq (.rep (.cls localCls) 1 none false) emailAtDomain

/-- The Email pattern is the word boundary followed by `emailLocal`. -/
theorem emailRE_decomp : emailRE = .seq .wb emailLocal := rfl

/-- Helper: first result of the trailing fragment when the whole letter run
is followed by a word boundary. -/
theorem emailTld_head (t : List Char) (p4 K : Nat)
    (hrun : runLen tldCls t p4 = K) (hK : 2 ≤ K) (hwb : atWB t (p4 + K) = true) :
    ∃ r, mtch emailTld t p4 [] = (p4 + K, ([] : Caps)) :: r := by
  rw [emailTld]
  rw [show mtch (.seq (.rep (.cls tldCls) 2 none false) .wb) t p4 [] =
    (mtch (.rep (.cls tldCls) 2 none false) t p4 []).flatMap
      (fun ec => mtch .wb t ec.1 ec.2) from rfl]
  rw [mtch_repcls, hrun]
  rw [show K + 1 - 2 = (K - 2) + 1 from by omega]
  rw [show descEnds p4 2 ((K - 2) + 1) = (p4 + 2 + (K - 2)) :: descEnds p4 2 (K - 2) from
    rfl]
  rw [List.map_cons, List.flatMap_cons]
  rw [show p4 + 2 + (K - 2) = p4 + K from by omega]
  rw [show mtch .wb t (p4 + K) [] = wbStep t (p4 + K) [] from rfl, wbStep, if_pos hwb]
  exact ⟨_, rfl⟩

/-- Helper: first result of `emailDotTld` when a dot is followed by a
successful trailing fragment. -/
theorem emailDotTld_head (t : List Char) (p3 e : Nat)
    (hdot : t[p3]? = some '.')
    (h : ∃ r, mtch emailTld t (p3 + 1) [] = (e, ([] : Caps)) :: r) :
    ∃ r, mtch emailDotTld t p3 [] = (e, ([] : Caps)) :: r := by
  obtain ⟨r, hr⟩ := h
  rw [emailDotTld]
  rw [show mtch (.seq (.cls [('.', '.')]) emailTld) t p3 [] =
    (mtch (.cls [('.', '.')]) t p3 []).flatMap (fun ec => mtch emailTld t ec.1 ec.2) from
    rfl]
  rw [show mtch (.cls [('.', '.')]) t p3 [] = clsStep [('.', '.')] t p3 [] from rfl]
  rw [clsStep_some [('.', '.')] t p3 [] '.' hdot (by decide)]
  rw [List.flatMap_cons, List.flatMap_nil, List.append_nil, hr]
  exact ⟨r, rfl⟩

/-- Helper: `emailDotTld` fails where no dot can start it. -/
theorem emailDotTld_nil (t : List Char) (p3 : Nat)
    (h : t[p3]? = none ∨ ∃ c, t[p3]? = some c ∧ memCls c [('.', '.')] = false) :
    mtch emailDotTld t p3 [] = [] := by
  rw [emailDotTld]
  rw [show mtch (.seq (.cls [('.', '.')]) emailTld) t p3 [] =
    (mtch (.cls [('.', '.')]) t p3 []).flatMap (fun ec => mtch emailTld t ec.1 ec.2) from
    rfl]
  rw [show mtch (.cls [('.', '.')]) t p3 [] = clsStep [('.', '.')] t p3 [] from rfl]
  rcases h with h | ⟨c, hc, hm⟩
  · rw [clsStep_none [('.', '.')] t p3 [] h]
    rfl
  · rw [clsStep_fail [('.', '.')] t p3 [] c hc hm]
    rfl

/-- Helper: first result of the domain fragment: the greedy domain run
backtracks to the last dot that leaves a successful trailing fragment. -/
theorem emailDomain_head (t : List Char) (p2 mlen K e : Nat)
    (hm1 : 1 ≤ mlen)
    (hrun : runLen domainCls t p2 = mlen + 1 + K)
    (hfail : ∀ i, mlen < i → i ≤ mlen + 1 + K →
      t[p2 + i]? = none ∨ ∃ c, t[p2 + i]? = some c ∧ memCls c [('.', '.')] = false)
    (hdt : ∃ r, mtch emailDotTld t (p2 + mlen) [] = (e, ([] : Caps)) :: r) :
    ∃ r, mtch emailDomain t p2 [] = (e, ([] : Caps)) :: r := by
  obtain ⟨n, rfl⟩ : ∃ n, mlen = n + 1 := ⟨mlen - 1, by omega⟩
  obtain ⟨r, hr⟩ := hdt
  rw [emailDomain]
  rw [show mtch (.seq (.rep (.cls domainCls) 1 none false) emailDotTld) t p2 [] =
    (mtch (.rep (.cls domainCls) 1 none false) t p2 []).flatMap
      (fun ec => mtch emailDotTld t ec.1 ec.2) from rfl]
  rw [mtch_repcls, hrun]
  rw [show n + 1 + 1 + K + 1 - 1 = n + 1 + 1 + K from by omega]
  rw [descEnds_split p2 1 (n + 1 + 1 + K) (n + 1) (by omega)]
  rw [List.map_append, List.flatMap_append]
  have hnil : ((descEnds p2 (1 + (n + 1)) (n + 1 + 1 + K - (n + 1))).map
      (fun e2 => (e2, ([] : Caps)))).flatMap
        (fun ec => mtch emailDotTld t ec.1 ec.2) = [] := by
    apply flatMap_nil_of_forall
    intro x hx
    obtain ⟨e2, he2, hfx⟩ := List.mem_map.mp hx
    obtain ⟨i, hi, rfl⟩ := (mem_descEnds p2 (1 + (n + 1)) _ e2).mp he2
    rw [← hfx]
    apply emailDotTld_nil
    show t[p2 + (1 + (n + 1)) + i]? = none ∨
      ∃ c, t[p2 + (1 + (n + 1)) + i]? = some c ∧ memCls c [('.', '.')] = false
    rw [show p2 + (1 + (n + 1)) + i = p2 + (1 + (n + 1) + i) from by omega]
    exact hfail (1 + (n + 1) + i) (by omega) (by omega)
  simp only [hnil, List.nil_append]
  rw [show descEnds p2 1 (n + 1) = (p2 + 1 + n) :: descEnds p2 1 n from rfl]
  rw [List.map_cons, List.flatMap_cons]
  rw [show p2 + 1 + n = p2 + (n + 1) from by omega]
  rw [hr]
  exact ⟨_, rfl⟩

/-- Helper: first result of `emailAtDomain` when an at sign is followed by a
successful domain fragment. -/
theorem emailAtDomain_head (t : List Char) (p1 e : Nat)
    (hat : t[p1]? = some '@')
    (h : ∃ r, mtch emailDomain t (p1 + 1) [] = (e, ([] : Caps)) :: r) :
    ∃ r, mtch emailAtDomain t p1 [] = (e, ([] : Caps)) :: r := by
  obtain ⟨r, hr⟩ := h
  rw [emailAtDomain]
  rw [show mtch (.seq (.cls [('@', '@')]) emailDomain) t p1 [] =
    (mtch (.cls [('@', '@')]) t p1 []).flatMap (fun ec => mtch emailDomain t ec.1 ec.2)
    from rfl]
  rw [show mtch (.cls [('@', '@')]) t p1 [] = clsStep [('@', '@')] t p1 [] from rfl]
  rw [clsStep_some [('@', '@')] t p1 [] '@' hat (by decide)]
  rw [List.flatMap_cons, List.flatMap_nil, List.append_nil, hr]
  exact ⟨r, rfl⟩

/-- Helper: first result of `emailLocal`: the greedy local run is consumed
whole and the rest succeeds right after it. -/
theorem emailLocal_head (t : List Char) (p llen e : Nat)
    (h1 : 1 ≤ llen) (hrun : runLen localCls t p = llen)
    (had : ∃ r, mtch emailAtDomain t (p + llen) [] = (e, ([] : Caps)) :: r) :
    ∃ r, mtch emailLocal t p [] = (e, ([] : Caps)) :: r := by
  obtain ⟨n, rfl⟩ : ∃ n, llen = n + 1 := ⟨llen - 1, by omega⟩
  obtain ⟨r, hr⟩ := had
  rw [emailLocal]
  rw [show mtch (.seq (.rep (.cls localCls) 1 none false) emailAtDomain) t p [] =
    (mtch (.rep (.cls localCls) 1 none false) t p []).flatMap
      (fun ec => mtch emailAtDomain t ec.1 ec.2) from rfl]
  rw [mtch_repcls, hrun]
  rw [show n + 1 + 1 - 1 = n + 1 from by omega]
  rw [show descEnds p 1 (n + 1) = (p + 1 + n) :: descEnds p 1 n from rfl]
  rw [List.map_cons, List.flatMap_cons]
  rw [show p + 1 + n = p + (n + 1) from by omega]
  rw [hr]
  exact ⟨_, rfl⟩

/-- Helper: first result of the whole Email pattern at a boundary position
where `emailLocal` succeeds. -/
theorem email_head (t : List Char) (p e : Nat)
    (hwb : atWB t p = true)
    (h : ∃ r, mtch emailLocal t p [] = (e, ([] : Caps)) :: r) :
    ∃ r, mtch emailRE t p [] = (e, ([] : Caps)) :: r := by
  obtain ⟨r, hr⟩ := h
  rw [emailRE_decomp]
  rw [show mtch (.seq .wb emailLocal) t p [] =
    (mtch .wb t p []).flatMap (fun ec => mtch emailLocal t ec.1 ec.2) from rfl]
  rw [show mtch .wb t p [] = wbStep t p [] from rfl, wbStep, if_pos hwb]
  rw [List.flatMap_cons, List.flatMap_nil, List.append_nil, hr]
  exact ⟨r, rfl⟩

/-- Helper: every character a match of the Email pattern consumes is an
email glyph (characters of its five classes and literals). -/
theorem email_match_chars (t : List Char) (q : Nat) (ec : Nat × Caps)
    (h : ec ∈ mtch emailRE t q []) :
    ∀ i, q ≤ i → i < ec.1 → ∃ c, t[i]? = some c ∧ isEmailGlyph c = true := by
  rw [emailRE_decomp, mem_mtch_seq] at h
  obtain ⟨e0, he0, h⟩ := h
  obtain ⟨hc0, hp0, _⟩ := mem_wbStep t q [] e0 he0
  rw [emailLocal, mem_mtch_seq] at h
  obtain ⟨e1, he1, h⟩ := h
  rw [hp0, hc0, mem_mtch_repcls] at he1
  obtain ⟨hc1, k1, hk1lo, hk1hi, hp1⟩ := he1
  rw [emailAtDomain, mem_mtch_seq] at h
  obtain ⟨e2, he2, h⟩ := h
  obtain ⟨hc2, hp2, cAt, hcAt, hmAt⟩ := mem_clsStep [('@', '@')] t e1.1 e1.2 e2 he2
  rw [emailDomain, mem_mtch_seq] at h
  obtain ⟨e3, he3, h⟩ := h
  rw [mem_mtch_repcls] at he3
  obtain ⟨hc3, k2, hk2lo, hk2hi, hp3⟩ := he3
  rw [emailDotTld, mem_mtch_seq] at h
  obtain ⟨e4, he4, h⟩ := h
  obtain ⟨hc4, hp4, cDot, hcDot, hmDot⟩ := mem_clsStep [('.', '.')] t e3.1 e3.2 e4 he4
  rw [emailTld, mem_mtch_seq] at h
  obtain ⟨e5, he5, h⟩ := h
  rw [mem_mtch_repcls] at he5
  obtain ⟨hc5, k3, hk3lo, hk3hi, hp5⟩ := he5
  obtain ⟨_, hpEnd, _⟩ := mem_wbStep t e5.1 e5.2 ec h
  intro i hqi hilt
  rcases Nat.lt_or_ge i e1.1 with h1 | h1
  · have hik : i - q < k1 := by omega
    have := runLen_get localCls t (i - q) q (by omega)
    rw [show q + (i - q) = i from by omega] at this
    obtain ⟨c, hc, hm⟩ := this
    exact ⟨c, hc, local_glyph c hm⟩
  · rcases Nat.lt_or_ge i e2.1 with h2 | h2
    · have hieq : i = e1.1 := by omega
      exact ⟨cAt, hieq ▸ hcAt, atCls_glyph cAt hmAt⟩
    · rcases Nat.lt_or_ge i e3.1 with h3 | h3
      · have hik : i - e2.1 < k2 := by omega
        have := runLen_get domainCls t (i - e2.1) e2.1 (by omega)
        rw [show e2.1 + (i - e2.1) = i from by omega] at this
        obtain ⟨c, hc, hm⟩ := this
        exact ⟨c, hc, local_glyph c (domain_local c hm)⟩
      · rcases Nat.lt_or_ge i e4.1 with h4 | h4
        · have hieq : i = e3.1 := by omega
          exact ⟨cDot, hieq ▸ hcDot, dotCls_glyph cDot hmDot⟩
        · have hik : i - e4.1 < k3 := by omega
          have := runLen_get tldCls t (i - e4.1) e4.1 (by omega)
          rw [show e4.1 + (i - e4.1) = i from by omega] at this
          obtain ⟨c, hc, hm⟩ := this
          exact ⟨c, hc, tld_glyph c hm⟩

/-- Helper: a match of the Email pattern starting before a non-glyph
character cannot extend past it. -/
theorem email_match_bound (t : List Char) (p q : Nat) (hq : q < p)
    (hglyph : ∃ c, t[p - 1]? = some c ∧ isEmailGlyph c = false)
    (ec : Nat × Caps) (h : ec ∈ mtch emailRE t q []) : ec.1 ≤ p := by
  by_contra hgt
  obtain ⟨c, hc, hg⟩ := hglyph
  obtain ⟨c2, hc2, hg2⟩ := email_match_chars t q ec h (p - 1) (by omega) (by omega)
  rw [hc] at hc2
  cases hc2
  rw [hg2] at hg
  exact absurd hg (by simp)

/-- Helper: `takeWhile` takes a satisfying block up to the first failing
character. -/
theorem takeWhile_append_stop (p : Char → Bool) (u : List Char) (c : Char) (w : List Char)
    (hu : ∀ x ∈ u, p x = true) (hc : p c = false) :
    (u ++ c :: w).takeWhile p = u := by
  induction u with
  | nil => simp [List.takeWhile_cons, hc]
  | cons x xs ih =>
      rw [List.cons_append, List.takeWhile_cons, hu x (List.mem_cons_self x xs)]
      simp only [if_true]
      rw [ih (fun y hy => hu y (List.mem_cons_of_mem x hy))]

/-- Helper: at a delimited well-formed address the Email pattern's first
match ends exactly at the end of the address. -/
theorem email_first (pre l m tl post : List Char)
    (hwf : EmailWF l m tl)
    (hpre : pre = [] ∨ ∃ c, pre.getLast? = some c ∧ isEmailGlyph c = false)
    (hpost : post = [] ∨ ∃ c, post.head? = some c ∧ isEmailGlyph c = false) :
    ∃ r, mtch emailRE (pre ++ (l ++ '@' :: (m ++ '.' :: (tl ++ post)))) pre.length [] =
      (pre.length + l.length + 1 + m.length + 1 + tl.length, ([] : Caps)) :: r := by
  obtain ⟨hl0, hlc, hlw, hm0, hmc, htl2, htlc⟩ := hwf
  obtain ⟨c0, l2, rfl⟩ : ∃ c0 l2, l = c0 :: l2 := by
    cases l with
    | nil => exact absurd rfl hl0
    | cons c0 l2 => exact ⟨c0, l2, rfl⟩
  set T := pre ++ ((c0 :: l2) ++ '@' :: (m ++ '.' :: (tl ++ post))) with hT
  have hd0 : T.drop pre.length = (c0 :: l2) ++ '@' :: (m ++ '.' :: (tl ++ post)) :=
    List.drop_left pre _
  have hd1 : T.drop (pre.length + (c0 :: l2).length) = '@' :: (m ++ '.' :: (tl ++ post)) := by
    rw [show T = (pre ++ (c0 :: l2)) ++ '@' :: (m ++ '.' :: (tl ++ post)) from by
      rw [hT]; simp]
    rw [show pre.length + (c0 :: l2).length = (pre ++ (c0 :: l2)).length from by simp]
    exact List.drop_left _ _
  have hd2 : T.drop (pre.length + (c0 :: l2).length + 1) = m ++ '.' :: (tl ++ post) := by
    rw [show T = ((pre ++ (c0 :: l2)) ++ ['@']) ++ (m ++ '.' :: (tl ++ post)) from by
      rw [hT]; simp]
    rw [show pre.length + (c0 :: l2).length + 1 =
      ((pre ++ (c0 :: l2)) ++ ['@']).length from by simp; omega]
    exact List.drop_left _ _
  have hd3 : T.drop (pre.length + (c0 :: l2).length + 1 + m.length) =
      '.' :: (tl ++ post) := by
    rw [show T = (((pre ++ (c0 :: l2)) ++ ['@']) ++ m) ++ '.' :: (tl ++ post) from by
      rw [hT]; simp]
    rw [show pre.length + (c0 :: l2).length + 1 + m.length =
      (((pre ++ (c0 :: l2)) ++ ['@']) ++ m).length from by simp; omega]
    exact List.drop_left _ _
  have hd4 : T.drop (pre.length + (c0 :: l2).length + 1 + m.length + 1) = tl ++ post := by
    rw [show T = ((((pre ++ (c0 :: l2)) ++ ['@']) ++ m) ++ ['.']) ++ (tl ++ post) from by
      rw [hT]; simp]
    rw [show pre.length + (c0 :: l2).length + 1 + m.length + 1 =
      ((((pre ++ (c0 :: l2)) ++ ['@']) ++ m) ++ ['.']).length from by simp; omega]
    exact List.drop_left _ _
  have hrl : runLen localCls T pre.length = (c0 :: l2).length := by
    rw [runLen, hd0,
      takeWhile_append_stop (fun c => memCls c localCls) (c0 :: l2) '@' _
        (fun x hx => hlc x (by simpa using hx)) (by decide)]
  have hdomAll : ∀ x ∈ m ++ '.' :: tl, memCls x domainCls = true := by
    intro x hx
    rcases List.mem_append.mp hx with hx | hx
    · exact hmc x hx
    · rcases List.mem_cons.mp hx with rfl | hx
      · decide
      · exact letter_domain x (htlc x hx)
  have hrd : runLen domainCls T (pre.length + (c0 :: l2).length + 1) =
      m.length + 1 + tl.length := by
    rw [runLen, hd2]
    rcases hpost with rfl | ⟨c, hch, hcg⟩
    · rw [show m ++ '.' :: (tl ++ ([] : List Char)) = m ++ '.' :: tl from by simp]
      rw [List.takeWhile_eq_self_iff.mpr hdomAll]
      simp
      omega
    · cases post with
      | nil => simp at hch
      | cons c2 post2 =>
          have hc2 : c2 = c := by simpa using hch
          subst hc2
          rw [show m ++ '.' :: (tl ++ c2 :: post2) = (m ++ '.' :: tl) ++ c2 :: post2 from by
            simp]
          rw [takeWhile_append_stop _ _ c2 _ hdomAll (notGlyph_domain c2 hcg)]
          simp
          omega
  have htldAll : ∀ x ∈ tl, memCls x tldCls = true := fun x hx => letter_tld x (htlc x hx)
  have hrt : runLen tldCls T (pre.length + (c0 :: l2).length + 1 + m.length + 1) =
      tl.length := by
    rw [runLen, hd4]
    rcases hpost with rfl | ⟨c, hch, hcg⟩
    · rw [show tl ++ ([] : List Char) = tl from by simp]
      rw [List.takeWhile_eq_self_iff.mpr htldAll]
    · cases post with
      | nil => simp at hch
      | cons c2 post2 =>
          have hc2 : c2 = c := by simpa using hch
          subst hc2
          rw [takeWhile_append_stop _ _ c2 _ htldAll (notGlyph_tld c2 hcg)]
  have hatc : T[pre.length + (c0 :: l2).length]? = some '@' := by
    rw [← List.head?_drop, hd1]
    rfl
  have hdotc : T[pre.length + (c0 :: l2).length + 1 + m.length]? = some '.' := by
    rw [← List.head?_drop, hd3]
    rfl
  have hWp : atWB T pre.length = true := by
    rw [atWB]
    have hr : T[pre.length]? = some c0 := by
      rw [← List.head?_drop, hd0]
      rfl
    rw [hr]
    have hw0 : isWordChar c0 = true := hlw c0 (by simp)
    by_cases hp : pre.length = 0
    · rw [if_pos hp]
      simp [optWord, hw0]
    · rw [if_neg hp]
      have hpre2 : ∃ c, pre.getLast? = some c ∧ isEmailGlyph c = false := by
        rcases hpre with rfl | h
        · simp at hp
        · exact h
      obtain ⟨c, hcl, hcg⟩ := hpre2
      have hprev : T[pre.length - 1]? = some c := by
        rw [hT, List.getElem?_append_left (by omega : pre.length - 1 < pre.length)]
        rw [← List.getLast?_eq_getElem?]
        exact hcl
      rw [hprev]
      simp [optWord, notGlyph_word c hcg, hw0]
  have hWend : atWB T
      (pre.length + (c0 :: l2).length + 1 + m.length + 1 + tl.length) = true := by
    rw [atWB]
    rw [if_neg (by omega :
      ¬pre.length + (c0 :: l2).length + 1 + m.length + 1 + tl.length = 0)]
    obtain ⟨tlF, cl, rfl⟩ : ∃ L b, tl = L ++ [b] := by
      rcases List.eq_nil_or_concat tl with rfl | ⟨L, b, hh⟩
      · simp at htl2
      · exact ⟨L, b, by simpa [List.concat_eq_append] using hh⟩
    have hprev : T[pre.length + (c0 :: l2).length + 1 + m.length + 1 +
        (tlF ++ [cl]).length - 1]? = some cl := by
      rw [show pre.length + (c0 :: l2).length + 1 + m.length + 1 +
        (tlF ++ [cl]).length - 1 =
        pre.length + (c0 :: l2).length + 1 + m.length + 1 + ((tlF ++ [cl]).length - 1)
        from by simp]
      rw [← List.getElem?_drop, hd4]
      rw [List.getElem?_append_left (by simp : (tlF ++ [cl]).length - 1 <
        (tlF ++ [cl]).length)]
      rw [← List.getLast?_eq_getElem?]
      simp
    have hnext : T[pre.length + (c0 :: l2).length + 1 + m.length + 1 +
        (tlF ++ [cl]).length]? = post.head? := by
      rw [show pre.length + (c0 :: l2).length + 1 + m.length + 1 + (tlF ++ [cl]).length =
        pre.length + (c0 :: l2).length + 1 + m.length + 1 + ((tlF ++ [cl]).length + 0)
        from by omega]
      rw [← List.getElem?_drop, hd4]
      rw [show (tlF ++ [cl]).length + 0 = (tlF ++ [cl]).length from by omega]
      rw [List.getElem?_append_right (Nat.le_refl _), Nat.sub_self]
      exact (List.head?_eq_getElem? post).symm
    rw [hprev, hnext]
    have hclw : isWordChar cl = true :=
      letter_word cl (htlc cl (by simp))
    rcases hpost with rfl | ⟨c, hch, hcg⟩
    · simp [optWord, hclw]
    · rw [hch]
      simp [optWord, hclw, notGlyph_word c hcg]
  have hfail : ∀ i, m.length < i → i ≤ m.length + 1 + tl.length →
      T[pre.length + (c0 :: l2).length + 1 + i]? = none ∨
        ∃ c, T[pre.length + (c0 :: l2).length + 1 + i]? = some c ∧
          memCls c [('.', '.')] = false := by
    intro i hi1 hi2
    have hidx : T[pre.length + (c0 :: l2).length + 1 + i]? =
        (tl ++ post)[i - (m.length + 1)]? := by
      rw [show pre.length + (c0 :: l2).length + 1 + i =
        pre.length + (c0 :: l2).length + 1 + m.length + 1 + (i - (m.length + 1)) from by
        omega]
      rw [← List.getElem?_drop, hd4]
    rw [hidx]
    by_cases hj : i - (m.length + 1) < tl.length
    · right
      rw [List.getElem?_append_left hj, List.getElem?_eq_getElem hj]
      exact ⟨tl[i - (m.length + 1)],
        rfl, letter_not_dot _ (htlc _ (List.getElem_mem hj))⟩
    · have hj2 : i - (m.length + 1) = tl.length := by omega
      rw [hj2, List.getElem?_append_right (Nat.le_refl _), Nat.sub_self]
      rcases hpost with rfl | ⟨c, hch, hcg⟩
      · left
        rfl
      · right
        rw [← List.head?_eq_getElem?, hch]
        exact ⟨c, rfl, notGlyph_dot c hcg⟩
  have hm1 : 1 ≤ m.length := by
    cases m with
    | nil => exact absurd rfl hm0
    | cons _ _ => simp
  have h5 := emailTld_head T (pre.length + (c0 :: l2).length + 1 + m.length + 1)
    tl.length hrt htl2 hWend
  have h4 := emailDotTld_head T (pre.length + (c0 :: l2).length + 1 + m.length)
    (pre.length + (c0 :: l2).length + 1 + m.length + 1 + tl.length) hdotc h5
  have h3 := emailDomain_head T (pre.length + (c0 :: l2).length + 1) m.length tl.length
    (pre.length + (c0 :: l2).length + 1 + m.length + 1 + tl.length) hm1 hrd hfail h4
  have h2 := emailAtDomain_head T (pre.length + (c0 :: l2).length)
    (pre.length + (c0 :: l2).length + 1 + m.length + 1 + tl.length) hatc h3
  have h1 := emailLocal_head T pre.length (c0 :: l2).length
    (pre.length + (c0 :: l2).length + 1 + m.length + 1 + tl.length)
    (by simp) hrl h2
  exact email_head T pre.length
    (pre.length + (c0 :: l2).length + 1 + m.length + 1 + tl.length) hWp h1

/-- Helper: the head of a list is a member. -/
theorem mem_of_headq {α : Type} (l : List α) (x : α) (h : l.head? = some x) : x ∈ l := by
  cases l with
  | nil => simp at h
  | cons y ys =>
      rw [List.head?_cons, Option.some_inj] at h
      exact h ▸ List.mem_cons_self y ys

/-- Helper: the `findall` scan reports the match at `p` whenever the first
match at every earlier position ends by `p`. -/
theorem email_scan (T : List Char) (p pEnd : Nat)
    (hhead : (mtch emailRE T p []).head? = some (pEnd, []))
    (hbound : ∀ q, q < p → ∀ ec ∈ mtch emailRE T q [], ec.1 ≤ p)
    (hpLen : p ≤ T.length) :
    ∀ (f s0 : Nat), s0 ≤ p → T.length + 1 - s0 ≤ f →
      reValue emailRE T p pEnd [] ∈ findallAux f emailRE T s0 := by
  intro f
  induction f with
  | zero => intro s0 hs0 hf; omega
  | succ f ih =>
      intro s0 hs0 hf
      rw [findallAux, if_pos (by omega : s0 ≤ T.length)]
      by_cases hsp : s0 = p
      · subst hsp
        rw [hhead]
        exact List.mem_cons_self _ _
      · have hlt : s0 < p := by omega
        cases h : (mtch emailRE T s0 []).head? with
        | none => exact ih (s0 + 1) (by omega) (by omega)
        | some ec =>
            have hecm : ec ∈ mtch emailRE T s0 [] := mem_of_headq _ ec h
            have hecb : ec.1 ≤ p := hbound s0 hlt ec hecm
            refine List.mem_cons_of_mem _ ?_
            by_cases hadv : s0 < ec.1
            · rw [if_pos hadv]
              exact ih ec.1 (by omega) (by omega)
            · rw [if_neg hadv]
              exact ih (s0 + 1) (by omega) (by omega)

/-- Claim C4: a text containing a well-formed email address — delimited on
each side by the text edge or by an ASCII character that cannot be part of
an email match — gives the pattern-based detector a Finding labeled `Email`
whose value is exactly that address.  The delimiters are required to be
ASCII because Python's str-mode `\b` counts non-ASCII alphanumerics as word
characters: an address abutting such a character sits on no word boundary
for the program, so it is not delimited there, and this embedding's
word-character model is faithful exactly on ASCII neighbours (see
`wordCls`). -/
theorem claim_C4 (pre post l m tl : List Char)
    (hwf : EmailWF l m tl)
    (hpre : pre = [] ∨
      ∃ c, pre.getLast? = some c ∧ isEmailGlyph c = false ∧ isAsciiChar c = true)
    (hpost : post = [] ∨
      ∃ c, post.head? = some c ∧ isEmailGlyph c = false ∧ isAsciiChar c = true) :
    ("Email: " ++ String.mk (l ++ '@' :: (m ++ '.' :: tl))) ∈
      detect (String.mk (pre ++ (l ++ '@' :: (m ++ '.' :: (tl ++ post))))) := by
  have hpre2 : pre = [] ∨ ∃ c, pre.getLast? = some c ∧ isEmailGlyph c = false := by
    rcases hpre with h | ⟨c, h1, h2, _⟩
    · exact Or.inl h
    · exact Or.inr ⟨c, h1, h2⟩
  have hpost2 : post = [] ∨ ∃ c, post.head? = some c ∧ isEmailGlyph c = false := by
    rcases hpost with h | ⟨c, h1, h2, _⟩
    · exact Or.inl h
    · exact Or.inr ⟨c, h1, h2⟩
  apply (mem_detect_iff _ _).mpr
  refine ⟨("Email", emailRE), by simp [piiPatterns],
    String.mk (l ++ '@' :: (m ++ '.' :: tl)), ?_, ?_⟩
  · obtain ⟨r, hr⟩ := email_first pre l m tl post hwf hpre2 hpost2
    have hhead : (mtch emailRE (pre ++ (l ++ '@' :: (m ++ '.' :: (tl ++ post))))
        pre.length []).head? =
        some (pre.length + l.length + 1 + m.length + 1 + tl.length, []) := by
      rw [hr]
      rfl
    have hbound : ∀ q, q < pre.length →
        ∀ ec ∈ mtch emailRE (pre ++ (l ++ '@' :: (m ++ '.' :: (tl ++ post)))) q [],
          ec.1 ≤ pre.length := by
      intro q hq ec hec
      rcases hpre2 with rfl | ⟨c, hcl, hcg⟩
      · simp at hq
      · refine email_match_bound _ pre.length q hq ⟨c, ?_, hcg⟩ ec hec
        rw [List.getElem?_append_left (by omega : pre.length - 1 < pre.length)]
        rw [← List.getLast?_eq_getElem?]
        exact hcl
    have hpLen : pre.length ≤ (pre ++ (l ++ '@' :: (m ++ '.' :: (tl ++ post)))).length := by
      simp
    have hmem := email_scan (pre ++ (l ++ '@' :: (m ++ '.' :: (tl ++ post))))
      pre.length (pre.length + l.length + 1 + m.length + 1 + tl.length) hhead hbound hpLen
      ((pre ++ (l ++ '@' :: (m ++ '.' :: (tl ++ post)))).length + 1) 0 (by omega) (by omega)
    have hvalue : reValue emailRE (pre ++ (l ++ '@' :: (m ++ '.' :: (tl ++ post))))
        pre.length (pre.length + l.length + 1 + m.length + 1 + tl.length) [] =
        String.mk (l ++ '@' :: (m ++ '.' :: tl)) := by
      rw [reValue, if_pos (by decide : numGroups emailRE = 0), sliceStr]
      rw [List.drop_left pre _]
      rw [show l ++ '@' :: (m ++ '.' :: (tl ++ post)) =
        (l ++ '@' :: (m ++ '.' :: tl)) ++ post from by simp]
      rw [show pre.length + l.length + 1 + m.length + 1 + tl.length - pre.length =
        (l ++ '@' :: (m ++ '.' :: tl)).length from by simp; omega]
      rw [List.take_left]
    rw [hvalue] at hmem
    exact hmem
  · show "Email: " ++ String.mk (l ++ '@' :: (m ++ '.' :: tl)) =
      "Email" ++ ": " ++ String.mk (l ++ '@' :: (m ++ '.' :: tl))
    rfl

/-- Witness for C4 on a concrete sentence containing an address. -/
theorem claim_C4_witness :
    ("Email: " ++ String.mk ("john.doe".data ++ '@' :: ("example".data ++ '.' ::
        "com".data))) ∈
      detect (String.mk ("Contact ".data ++ ("john.doe".data ++ '@' ::
        ("example".data ++ '.' :: ("com".data ++ " today".data))))) :=
  claim_C4 "Contact ".data " today".data "john.doe".data "example".data "com".data
    (by refine ⟨by decide, by decide, by decide, by decide, by decide, by decide, by decide⟩)
    (Or.inr ⟨' ', by decide, by decide, by decide⟩)
    (Or.inr ⟨' ', by decide, by decide, by decide⟩)
